import Mathlib

/-!
Verification of the Text-to-SPARQL generation core against its specification.

The development shallowly embeds the Python sources of the repository:
  * `backend/utils/sparql_cleaner.py`  — query normalizer and structural check,
  * `backend/generation/planner.py`    — JSON plan parsing and the planning loop,
  * `backend/generation/generate_sparql.py` — prompt dispatch and the
    self-correcting generation loop (sync and async variants).

Python strings are modelled as `List Char` restricted to the ASCII fragment:
`\s` is the ASCII whitespace class, `\w` the ASCII word class, `str.lower` /
`str.upper` act on ASCII letters.  The LLM capability (`ModelRouter.generate`
/ `generate_sync`) is modelled as a trace oracle: every call site receives an
arbitrary reply or an exception, indexed by the number of calls of that kind
made so far; exceptions are explicit `Except` errors.  Prompt texts influence
only the oracle's replies, which are universally quantified, so the control
flow modelled here is exactly that of the source.
-/

namespace T2S

/-! ## Character primitives (ASCII fragment of the Python semantics) -/

/-- Python's `\s` class / `str.strip` whitespace on ASCII. -/
def pyIsSpace (c : Char) : Bool :=
  c == ' ' || c == '\t' || c == '\n' || c == '\r' ||
  c == Char.ofNat 11 || c == Char.ofNat 12

/-- `str.lower` on an ASCII character. -/
def lowerAscii (c : Char) : Char :=
  if 65 ≤ c.toNat && c.toNat ≤ 90 then Char.ofNat (c.toNat + 32) else c

/-- `str.upper` on an ASCII character. -/
def upperAscii (c : Char) : Char :=
  if 97 ≤ c.toNat && c.toNat ≤ 122 then Char.ofNat (c.toNat - 32) else c

/-- Python's `\w` class on ASCII (letters, digits, underscore). -/
def wordChar (c : Char) : Bool :=
  (65 ≤ c.toNat && c.toNat ≤ 90) || (97 ≤ c.toNat && c.toNat ≤ 122) ||
  (48 ≤ c.toNat && c.toNat ≤ 57) || c == '_'

/-- Backtick. -/
def cBT : Char := Char.ofNat 96
/-- Double quote. -/
def cDQ : Char := Char.ofNat 34
/-- Single quote. -/
def cSQ : Char := Char.ofNat 39
/-- Backslash. -/
def cBS : Char := Char.ofNat 92
/-- Opening curly brace. -/
def cLB : Char := Char.ofNat 123
/-- Closing curly brace. -/
def cRB : Char := Char.ofNat 125

/-! ## List-of-char primitives -/

/-- `str.lstrip` (no argument): drop leading whitespace. -/
def lstrip (l : List Char) : List Char := l.dropWhile pyIsSpace

/-- `str.rstrip` (no argument): drop trailing whitespace. -/
def rstrip (l : List Char) : List Char := (l.reverse.dropWhile pyIsSpace).reverse

/-- `str.strip` (no argument). -/
def pstrip (l : List Char) : List Char := rstrip (lstrip l)

/-- `re.sub(r"\s+", " ", text)`: collapse every whitespace run to one space. -/
def collapse : List Char → List Char
  | [] => []
  | [c] => if pyIsSpace c then [' '] else [c]
  | c :: d :: rest =>
    if pyIsSpace c then
      if pyIsSpace d then collapse (d :: rest)
      else ' ' :: collapse (d :: rest)
    else c :: collapse (d :: rest)

/-- `str.startswith` on char lists (case-sensitive). -/
def startsWithL : List Char → List Char → Bool
  | [], _ => true
  | _ :: _, [] => false
  | k :: ks, c :: cs => k == c && startsWithL ks cs

/-- Consume `kw` case-insensitively from the front of `l`; return the rest. -/
def stripCI : List Char → List Char → Option (List Char)
  | [], l => some l
  | _ :: _, [] => none
  | k :: ks, c :: cs => if lowerAscii c == lowerAscii k then stripCI ks cs else none

/-- Python's substring test `needle in haystack`. -/
def pyInStr : List Char → List Char → Bool
  | n, [] => n.isEmpty
  | n, c :: t => startsWithL n (c :: t) || pyInStr n t

/-! ## `backend/utils/sparql_cleaner.py` -/

/-- The three-backtick fence marker. -/
def btChars : List Char := [cBT, cBT, cBT]

/-- `re.sub(r"^```(?:tag)?\s*", "", text, flags=IGNORECASE)`: one anchored
removal of a leading fence, an optional tag, and following whitespace. -/
def dropFenceStartTag (tag l : List Char) : List Char :=
  match stripCI btChars l with
  | none => l
  | some rest =>
    match stripCI tag rest with
    | some rest2 => rest2.dropWhile pyIsSpace
    | none => rest.dropWhile pyIsSpace

/-- Leading-fence removal of `clean_sparql` (tag `sparql`). -/
def dropFenceStart (l : List Char) : List Char := dropFenceStartTag "sparql".data l

/-- `re.sub(r"\s*```$", "", text)`: remove a trailing fence together with the
whitespace run before it (the pattern's single possible match). -/
def dropFenceEnd (l : List Char) : List Char :=
  if l.reverse.take 3 == btChars then rstrip (l.take (l.length - 3)) else l

/-- `text.replace('\\"', '"')`: left-to-right unescaping of `\"` pairs. -/
def unescDQ : List Char → List Char
  | [] => []
  | [c] => [c]
  | c :: d :: t =>
    if c == cBS && d == cDQ then cDQ :: unescDQ t
    else c :: unescDQ (d :: t)

/-- `text.replace('"', "'")`. -/
def dqToSq (l : List Char) : List Char := l.map (fun c => if c == cDQ then cSQ else c)

/-- Stage 2 of `clean_sparql`: normalize quotes. -/
def normQuotes (l : List Char) : List Char := dqToSq (unescDQ l)

/-- `re.sub(r"(?i)^sparql\s*query:\s*", "", text)`: one anchored removal. -/
def dropLeadA (l : List Char) : List Char :=
  match stripCI "sparql".data l with
  | none => l
  | some r1 =>
    match stripCI "query:".data (r1.dropWhile pyIsSpace) with
    | none => l
    | some r2 => r2.dropWhile pyIsSpace

/-- Regex alternation `(p|q)` anchored at the front: try `p`, then `q`. -/
def stripCIAlt (p q l : List Char) : Option (List Char) :=
  match stripCI p l with
  | some r => some r
  | none => stripCI q l

/-- `re.sub(r"(?i)^the\s*sparql\s*(query|statement)\s*(is)?:\s*", "", text)`:
one anchored removal ( `(is)?:` matches exactly when the remainder starts with
`is:` or `:` ). -/
def dropLeadB (l : List Char) : List Char :=
  match stripCI "the".data l with
  | none => l
  | some r1 =>
    match stripCI "sparql".data (r1.dropWhile pyIsSpace) with
    | none => l
    | some r2 =>
      match stripCIAlt "query".data "statement".data (r2.dropWhile pyIsSpace) with
      | none => l
      | some r3 =>
        match stripCIAlt "is:".data ":".data (r3.dropWhile pyIsSpace) with
        | none => l
        | some r4 => r4.dropWhile pyIsSpace

/-- The five query-start keywords of the extraction regex, lowercase. -/
def kwList : List (List Char) :=
  ["prefix".data, "select".data, "ask".data, "construct".data, "describe".data]

/-- Does `l` begin with `kw` (case-insensitively) followed by a `\b` boundary? -/
def kwAt1 (kw l : List Char) : Bool :=
  match stripCI kw l with
  | none => false
  | some [] => true
  | some (c :: _) => !wordChar c

/-- Does some start keyword match at the head of `l`? -/
def kwAt (l : List Char) : Bool := kwList.any (fun kw => kwAt1 kw l)

/-- `re.search(r"(?i)(PREFIX|SELECT|ASK|CONSTRUCT|DESCRIBE)\b", text)`:
the suffix of `text` from the first keyword match, if any. -/
def findKw : List Char → Option (List Char)
  | [] => none
  | c :: t => if kwAt (c :: t) then some (c :: t) else findKw t

/-- Stage 4 of `clean_sparql`: cut to the first keyword occurrence. -/
def kcut (l : List Char) : List Char := (findKw l).getD l

/-- Stage 5 of `clean_sparql`: keep everything up to the last `}` (`rfind`). -/
def bcut (l : List Char) : List Char :=
  let r := l.reverse.dropWhile (fun c => !(c == cRB))
  if r.isEmpty then l else r.reverse

/-- Stage 6 of `clean_sparql`: collapse whitespace and strip. -/
def wsFix (l : List Char) : List Char := pstrip (collapse l)

/-- `clean_sparql` from `backend/utils/sparql_cleaner.py`. -/
def clean_sparql (raw : List Char) : List Char :=
  if raw.isEmpty then []
  else wsFix (bcut (kcut (dropLeadB (dropLeadA
    (normQuotes (dropFenceEnd (dropFenceStart (pstrip raw))))))))

/-- The four start keywords used by `validate_sparql_structure`, uppercase. -/
def sparqlKws : List (List Char) :=
  ["SELECT".data, "ASK".data, "CONSTRUCT".data, "DESCRIBE".data]

/-- `validate_sparql_structure` from `backend/utils/sparql_cleaner.py`. -/
def validate_sparql_structure (sparql : List Char) : Bool :=
  if sparql.isEmpty then false
  else
    let normalized := sparql.map upperAscii
    let hasKw := sparqlKws.any (fun kw => startsWithL kw normalized) ||
      sparqlKws.any (fun kw => pyInStr (' ' :: (kw ++ [' '])) normalized)
    let hasBraces := sparql.contains cLB && sparql.contains cRB
    hasKw && hasBraces

/-- `_parse_yes_no` from `backend/generation/generate_sparql.py`. -/
def parse_yes_no (raw : List Char) : Bool :=
  if raw.isEmpty then false
  else
    let normalized := (pstrip raw).map upperAscii
    if startsWithL "YES".data normalized then true
    else if startsWithL "NO".data normalized then false
    else false

/-- Lowercase ASCII letter. -/
def lcLetter (c : Char) : Bool := 97 ≤ c.toNat && c.toNat ≤ 122

/-- Whitespace-normal form: every whitespace character is a single space and
no two whitespace characters are adjacent. -/
def isCollapsed : List Char → Bool
  | [] => true
  | [c] => !pyIsSpace c || c == ' '
  | c :: d :: rest =>
    (!pyIsSpace c || (c == ' ' && !pyIsSpace d)) && isCollapsed (d :: rest)

/-- Some suffix of `l` carries a keyword match at its head. -/
def HasKw (l : List Char) : Prop := ∃ s, s <:+ l ∧ kwAt s = true

/-! ## JSON values and `json.loads`

Models the decoded shape produced by Python's `json.loads` on the modelled
fragment: objects, arrays, strings with the standard escapes, integers, and
the three literals.  Floats and astral `\u` surrogate pairs are outside the
fragment; inputs using them make the modelled parser fail. -/

inductive PyVal where
  | vnull
  | vbool (b : Bool)
  | vint (n : Int)
  | vstr (s : List Char)
  | varr (xs : List PyVal)
  | vobj (kvs : List (List Char × PyVal))

/-- JSON insignificant whitespace. -/
def jWs (c : Char) : Bool := c == ' ' || c == '\t' || c == '\n' || c == '\r'

/-- Hex digit value. -/
def hexD (c : Char) : Option Nat :=
  if 48 ≤ c.toNat && c.toNat ≤ 57 then some (c.toNat - 48)
  else if 97 ≤ c.toNat && c.toNat ≤ 102 then some (c.toNat - 87)
  else if 65 ≤ c.toNat && c.toNat ≤ 70 then some (c.toNat - 55)
  else none

/-- Decimal digit value. -/
def decD (c : Char) : Option Nat :=
  if 48 ≤ c.toNat && c.toNat ≤ 57 then some (c.toNat - 48) else none

/-- Parse a JSON string body after the opening quote. -/
def parseStrBody (fuel : Nat) (l : List Char) : Option (List Char × List Char) :=
  match fuel, l with
  | 0, _ => none
  | _, [] => none
  | fuel+1, c :: t =>
    if c == cDQ then some ([], t)
    else if c == cBS then
      match t with
      | [] => none
      | e :: t2 =>
        let esc : Option (Char × List Char) :=
          if e == cDQ then some (cDQ, t2)
          else if e == cBS then some (cBS, t2)
          else if e == '/' then some ('/', t2)
          else if e == 'b' then some (Char.ofNat 8, t2)
          else if e == 'f' then some (Char.ofNat 12, t2)
          else if e == 'n' then some ('\n', t2)
          else if e == 'r' then some ('\r', t2)
          else if e == 't' then some ('\t', t2)
          else if e == 'u' then
            match t2 with
            | h1 :: h2 :: h3 :: h4 :: t3 =>
              match hexD h1, hexD h2, hexD h3, hexD h4 with
              | some a, some b, some c2, some d =>
                some (Char.ofNat (((a * 16 + b) * 16 + c2) * 16 + d), t3)
              | _, _, _, _ => none
            | _ => none
          else none
        match esc with
        | none => none
        | some (ch, rest) =>
          match parseStrBody fuel rest with
          | some (s, rest2) => some (ch :: s, rest2)
          | none => none
    else
      match parseStrBody fuel t with
      | some (s, rest2) => some (c :: s, rest2)
      | none => none

/-- Parse an integer literal; floats are outside the modelled fragment. -/
def parseIntBody (fuel : Nat) (acc : Int) (l : List Char) : Option (Int × List Char) :=
  match fuel, l with
  | 0, _ => none
  | _, [] => some (acc, [])
  | fuel+1, c :: t =>
    match decD c with
    | some d => parseIntBody fuel (acc * 10 + Int.ofNat d) t
    | none =>
      if c == '.' || c == 'e' || c == 'E' then none
      else some (acc, c :: t)

mutual

/-- Parse one JSON value. -/
def parseVal (fuel : Nat) (l : List Char) : Option (PyVal × List Char) :=
  match fuel with
  | 0 => none
  | fuel+1 =>
    match l.dropWhile jWs with
    | [] => none
    | c :: t =>
      if c == cLB then
        match (t.dropWhile jWs) with
        | d :: t2 =>
          if d == cRB then some (.vobj [], t2)
          else parseObjItems fuel [] (d :: t2)
        | [] => none
      else if c == '[' then
        match (t.dropWhile jWs) with
        | d :: t2 =>
          if d == ']' then some (.varr [], t2)
          else parseArrItems fuel [] (d :: t2)
        | [] => none
      else if c == cDQ then
        match parseStrBody (fuel+1) t with
        | some (s, rest) => some (.vstr s, rest)
        | none => none
      else if c == 't' then
        if startsWithL "rue".data t then some (.vbool true, t.drop 3) else none
      else if c == 'f' then
        if startsWithL "alse".data t then some (.vbool false, t.drop 4) else none
      else if c == 'n' then
        if startsWithL "ull".data t then some (.vnull, t.drop 3) else none
      else if c == '-' then
        match t with
        | d :: _ =>
          match decD d with
          | some _ =>
            match parseIntBody (fuel+1) 0 t with
            | some (n, rest) => some (.vint (-n), rest)
            | none => none
          | none => none
        | [] => none
      else
        match decD c with
        | some _ =>
          match parseIntBody (fuel+1) 0 (c :: t) with
          | some (n, rest) => some (.vint n, rest)
          | none => none
        | none => none

/-- Parse the items of a non-empty JSON array (head of `l` starts the first item). -/
def parseArrItems (fuel : Nat) (acc : List PyVal) (l : List Char) : Option (PyVal × List Char) :=
  match fuel with
  | 0 => none
  | fuel+1 =>
    match parseVal fuel l with
    | none => none
    | some (v, rest) =>
      match rest.dropWhile jWs with
      | ',' :: rest2 => parseArrItems fuel (acc ++ [v]) rest2
      | ']' :: rest2 => some (.varr (acc ++ [v]), rest2)
      | _ => none

/-- Parse the members of a non-empty JSON object (head of `l` starts the first key). -/
def parseObjItems (fuel : Nat) (acc : List (List Char × PyVal)) (l : List Char) :
    Option (PyVal × List Char) :=
  match fuel with
  | 0 => none
  | fuel+1 =>
    match l.dropWhile jWs with
    | c :: t =>
      if c == cDQ then
        match parseStrBody (fuel+1) t with
        | none => none
        | some (k, rest) =>
          match rest.dropWhile jWs with
          | ':' :: rest2 =>
            match parseVal fuel rest2 with
            | none => none
            | some (v, rest3) =>
              match rest3.dropWhile jWs with
              | ',' :: rest4 => parseObjItems fuel (acc ++ [(k, v)]) rest4
              | c2 :: rest4 =>
                if c2 == cRB then some (.vobj (acc ++ [(k, v)]), rest4) else none
              | [] => none
          | _ => none
      else none
    | [] => none

end

/-- `json.loads` on the modelled fragment: a complete parse with only
whitespace allowed after the value. -/
def pyLoads (l : List Char) : Option PyVal :=
  match parseVal (2 * l.length + 8) l with
  | some (v, rest) => if (rest.dropWhile jWs).isEmpty then some v else none
  | none => none

/-- `dict.get` (duplicate JSON keys resolve to the last occurrence, as in
`json.loads`). -/
def pyGet (kvs : List (List Char × PyVal)) (k : List Char) : Option PyVal :=
  (kvs.reverse.find? (fun kv => kv.1 == k)).map (fun kv => kv.2)

/-- Python truthiness of a decoded JSON value. -/
def pyTruthy : PyVal → Bool
  | .vnull => false
  | .vbool b => b
  | .vint n => !(n == 0)
  | .vstr s => !s.isEmpty
  | .varr xs => !xs.isEmpty
  | .vobj kvs => !kvs.isEmpty

/-- Is the value a JSON object (a Python `dict`)? -/
def isObjV : PyVal → Bool
  | .vobj _ => true
  | _ => false

/-- Decimal digits of a natural number. -/
def natRepr (n : Nat) : List Char := (Nat.toDigits 10 n)

/-- Python `str` of an integer. -/
def intRepr (n : Int) : List Char :=
  match n with
  | .ofNat m => natRepr m
  | .negSucc m => '-' :: natRepr (m + 1)

/-- `repr` of a Python string for the printable fragment: single quotes unless
the content holds a single quote and no double quote. -/
def strRepr (s : List Char) : List Char :=
  if s.contains cSQ && !s.contains cDQ then
    cDQ :: (s.flatMap (fun c => if c == cBS then [cBS, cBS] else [c])) ++ [cDQ]
  else
    cSQ :: (s.flatMap (fun c =>
      if c == cBS then [cBS, cBS] else if c == cSQ then [cBS, cSQ] else [c])) ++ [cSQ]

/-- Separator-joined concatenation. -/
def joinSep (sep : List Char) : List (List Char) → List Char
  | [] => []
  | [x] => x
  | x :: y :: rest => x ++ sep ++ joinSep sep (y :: rest)

mutual

/-- Python `repr` of a decoded JSON value (printable fragment). -/
def pyRepr : PyVal → List Char
  | .vnull => "None".data
  | .vbool true => "True".data
  | .vbool false => "False".data
  | .vint n => intRepr n
  | .vstr s => strRepr s
  | .varr xs => '[' :: pyReprArr xs ++ [']']
  | .vobj kvs => cLB :: pyReprObj kvs ++ [cRB]

/-- `repr` of the element list of a Python list. -/
def pyReprArr : List PyVal → List Char
  | [] => []
  | [x] => pyRepr x
  | x :: y :: rest => pyRepr x ++ ", ".data ++ pyReprArr (y :: rest)

/-- `repr` of the member list of a Python dict. -/
def pyReprObj : List (List Char × PyVal) → List Char
  | [] => []
  | [(k, v)] => strRepr k ++ ": ".data ++ pyRepr v
  | (k, v) :: m :: rest => strRepr k ++ ": ".data ++ pyRepr v ++ ", ".data ++ pyReprObj (m :: rest)

end

/-- Python `str` of a decoded JSON value (`str` falls back to `repr` on
containers). -/
def pyStr : PyVal → List Char
  | .vstr s => s
  | .vnull => "None".data
  | .vbool true => "True".data
  | .vbool false => "False".data
  | .vint n => intRepr n
  | .varr xs => pyRepr (.varr xs)
  | .vobj kvs => pyRepr (.vobj kvs)

/-! ## `backend/generation/planner.py` -/

/-- `PlannerOutput`: entity and relation elements keep their decoded record
values; reasoning steps are text. -/
structure PlannerOutput where
  entities : List PyVal
  relations : List PyVal
  chain_of_thought : List (List Char)

/-- `PlannerOutput()` — the all-empty plan. -/
def emptyPlan : PlannerOutput := ⟨[], [], []⟩

/-- Index of the first occurrence of a character. -/
def firstIdx (c : Char) (l : List Char) : Option Nat := l.findIdx? (fun d => d == c)

/-- Index of the last occurrence of a character (`str.rfind`). -/
def lastIdx (c : Char) (l : List Char) : Option Nat :=
  match (l.reverse).findIdx? (fun d => d == c) with
  | some i => some (l.length - 1 - i)
  | none => none

/-- `clean_json` from `backend/generation/planner.py`. -/
def clean_json (text : List Char) : List Char :=
  if text.isEmpty then []
  else
    let cleaned := pstrip text
    let cleaned := dropFenceStartTag "json".data cleaned
    let cleaned := dropFenceEnd cleaned
    match firstIdx cLB cleaned, lastIdx cRB cleaned with
    | some fb, some lb =>
      if fb < lb then (cleaned.take (lb + 1)).drop fb else cleaned
    | _, _ => cleaned

/-- The `or`-chained lookup `data.get(k) or fallback`. -/
def getOrV (kvs : List (List Char × PyVal)) (k : List Char) (fallback : PyVal) : PyVal :=
  match pyGet kvs k with
  | some v => if pyTruthy v then v else fallback
  | none => fallback

/-- The key-validation step of `parse_plan` (planner.py lines 96–112), applied
to an already-decoded object. -/
def validatePlanObj (kvs : List (List Char × PyVal)) : Option PlannerOutput :=
  let entities := getOrV kvs "entities".data (.varr [])
  let relations := getOrV kvs "relations".data (.varr [])
  let thought := getOrV kvs "chain_of_thought".data (getOrV kvs "plan".data (.varr []))
  match entities, relations, thought with
  | .varr es, .varr rs, .varr ts =>
    some ⟨es.filter isObjV, rs.filter isObjV, ts.map pyStr⟩
  | _, _, _ => none

/-- `parse_plan` from `backend/generation/planner.py`.  `.error ()` models the
uncaught `AttributeError` raised by `data.get` when the decoded value is not a
dict; `.ok none` models the `return None` paths. -/
def parse_plan (raw : List Char) : Except Unit (Option PlannerOutput) :=
  let payload := clean_json raw
  if payload.isEmpty then .ok none
  else
    match pyLoads payload with
    | none => .ok none
    | some (.vobj kvs) => .ok (validatePlanObj kvs)
    | some _ => .error ()

/-- The attempt loop of `plan_question_sync`: `oracle i` is the capability
reply (or exception) of attempt `i`. -/
def planAttempts (oracle : Nat → Except Unit (List Char)) :
    Nat → Nat → Option PlannerOutput
  | 0, _ => none
  | rem+1, attempt =>
    match oracle attempt with
    | .error _ => planAttempts oracle rem (attempt + 1)
    | .ok raw =>
      match parse_plan raw with
      | .error _ => planAttempts oracle rem (attempt + 1)
      | .ok none => planAttempts oracle rem (attempt + 1)
      | .ok (some pl) => some pl

/-- `plan_question_sync` from `backend/generation/planner.py` (`plan or
PlannerOutput()`; a `PlannerOutput` instance is always truthy). -/
def plan_question_sync (oracle : Nat → Except Unit (List Char)) (retries : Nat) :
    PlannerOutput :=
  (planAttempts oracle retries 0).getD emptyPlan

/-- The attempt loop of `plan_question_async` (literal transcription of the
async variant's body; `await` introduces no data flow). -/
def planAttemptsAsync (oracle : Nat → Except Unit (List Char)) :
    Nat → Nat → Option PlannerOutput
  | 0, _ => none
  | rem+1, attempt =>
    match oracle attempt with
    | .error _ => planAttemptsAsync oracle rem (attempt + 1)
    | .ok raw =>
      match parse_plan raw with
      | .error _ => planAttemptsAsync oracle rem (attempt + 1)
      | .ok none => planAttemptsAsync oracle rem (attempt + 1)
      | .ok (some pl) => some pl

/-- `plan_question_async` from `backend/generation/planner.py`. -/
def plan_question_async (oracle : Nat → Except Unit (List Char)) (retries : Nat) :
    PlannerOutput :=
  (planAttemptsAsync oracle retries 0).getD emptyPlan

/-! ## `backend/prompts/prompt_builder.py` -/

/-- A `{system, user}` prompt dict. -/
structure PromptPair where
  system : List Char
  user : List Char
deriving DecidableEq

/-- `ZERO_SHOT_SYSTEM_PROMPT` (stripped). -/
def zeroShotSystem : List Char :=
  ("You are an expert SPARQL generator for the DBpedia knowledge base.\n" ++
   "Convert natural language questions into correct SPARQL queries.\n\n" ++
   "Rules:\n1. Output only a valid SPARQL query.\n" ++
   "2. Use below prefixes for the queries.\n" ++
   "3. Use dbo: properties when possible. Do not invent properties.\n" ++
   "4. Always return a single variable (?x, ?item, or ?entity).\n" ++
   "5. Ensure the SPARQL query is syntactically correct and executable query.").data

/-- `CHAIN_OF_THOUGHT_SYSTEM_PROMPT` (stripped). -/
def chainOfThoughtSystem : List Char :=
  ("You are a DBpedia SPARQL generator. Based on the provided reasoning plan, construct a valid SPARQL query.\n\n" ++
   "Rules:\n1. Output only a valid SPARQL query.\n" ++
   "2. Use below prefixes for the queries.\n" ++
   "3. Use dbo: properties when possible. Do not invent properties.\n" ++
   "4. Always return a single variable (?x, ?item, or ?entity).\n" ++
   "5. Every statement in the WHERE clause MUST strictly adhere to the (Subject, Predicate, Object) triple pattern.\n" ++
   "6. Ensure the SPARQL query is syntactically correct and executable query.").data

/-- `item.get(key, '')` rendered through `str` inside an f-string.  The `_`
branch is unreachable from `parse_plan` output, whose elements are records. -/
def itemField (item : PyVal) (k : List Char) : List Char :=
  match item with
  | .vobj kvs =>
    match pyGet kvs k with
    | some v => pyStr v
    | none => []
  | _ => []

/-- `PlannerOutput.as_bullet_list` from `backend/generation/planner.py`. -/
def as_bullet_list (pl : PlannerOutput) : List Char :=
  let entityLines := pl.entities.map (fun item =>
    "- ".data ++ itemField item "text".data ++ " (".data ++ itemField item "uri".data ++ [')'])
  let relationLines := pl.relations.map (fun item =>
    "- ".data ++ itemField item "text".data ++ " (".data ++ itemField item "uri".data ++ [')'])
  let steps := pl.chain_of_thought.enum.map (fun p =>
    natRepr (p.1 + 1) ++ ". ".data ++ p.2)
  joinSep ['\n']
    (["Entities:".data] ++
     (if entityLines.isEmpty then ["- (none detected)".data] else entityLines) ++
     [[]] ++
     ["Relations:".data] ++
     (if relationLines.isEmpty then ["- (none detected)".data] else relationLines) ++
     [[]] ++
     ["Chain-of-Thought Steps:".data] ++
     (if steps.isEmpty then ["1. Outline reasoning steps for the question.".data] else steps))

/-- `prompt_builder.zero_shot`. -/
def zero_shot (question : List Char) : PromptPair :=
  ⟨zeroShotSystem,
   "Generate a SPARQL query for the following question:\n    ".data ++ question ++
   "\n    Return ONLY the SPARQL query.".data⟩

/-- `prompt_builder.chain_of_thought` (`plan = plan or PlannerOutput()`; an
existing `PlannerOutput` is always truthy). -/
def chain_of_thought (question : List Char) (plan : Option PlannerOutput) : PromptPair :=
  let pl := plan.getD emptyPlan
  ⟨chainOfThoughtSystem,
   "Question: ".data ++ question ++
   "\n    \n    Use the following structured plan to craft the SPARQL query:\n    ".data ++
   as_bullet_list pl ++
   "\n    \n    Return ONLY the SPARQL query. Think step-by-step.".data⟩

/-- `prompt_builder.dynamic_prompt` — defined in the source but never invoked
by the dispatch `_build_prompts`. -/
def dynamic_prompt (question : List Char) : PromptPair :=
  ⟨"Dynamic prompting is not yet implemented.".data, "Question: ".data ++ question⟩

/-! ## `backend/generation/generate_sparql.py` -/

/-- The error raised by `_build_prompts`:
`ValueError(f"Unsupported prompting technique: ...")` — the spec's
`UnsupportedTechniqueError`. -/
inductive BuildErr where
  | unsupported (technique : List Char)
deriving DecidableEq

/-- `_build_prompts` from `backend/generation/generate_sparql.py`. -/
def build_prompts (question technique : List Char) (plan : Option PlannerOutput) :
    Except BuildErr PromptPair :=
  let t := technique.map lowerAscii
  if t = "zero_shot".data then .ok (zero_shot question)
  else if t = "chain_of_thought".data then .ok (chain_of_thought question plan)
  else .error (.unsupported technique)

/-- Trace oracle for the generation loop's capability calls: the initial
generation reply, then the `i`-th review reply and the `i`-th correction
reply.  `.error ()` models a raised exception. -/
structure Cap where
  gen : Except Unit (List Char)
  review : Nat → Except Unit (List Char)
  correct : Nat → Except Unit (List Char)

/-- Outcome of a generation-loop run: the returned string, or `.error ()` for
an exception that escaped the loop, instrumented with the number of review
and correction capability invocations. -/
structure GenOut where
  result : Except Unit (List Char)
  reviews : Nat
  corrections : Nat

/-- The `for attempt in range(retries)` body of `_generate_with_retries`:
`rem` attempts remain, `attempt` is the current index, `cur` the current
candidate, `ri`/`ci` count capability invocations so far.  The correction
issued inside the `except` handler is not itself protected, so its failure
escapes (`.error`). -/
def genAttempts (cap : Cap) (retries : Nat) :
    Nat → Nat → List Char → Nat → Nat → GenOut
  | 0, _, cur, ri, ci => ⟨.ok cur, ri, ci⟩
  | rem+1, attempt, cur, ri, ci =>
    match cap.review ri with
    | .ok r =>
      if parse_yes_no r then ⟨.ok cur, ri + 1, ci⟩
      else
        match cap.correct ci with
        | .ok c => genAttempts cap retries rem (attempt + 1) (clean_sparql c) (ri + 1) (ci + 1)
        | .error _ =>
          if attempt < retries then
            match cap.correct (ci + 1) with
            | .ok c2 => genAttempts cap retries rem (attempt + 1) (clean_sparql c2) (ri + 1) (ci + 2)
            | .error _ => ⟨.error (), ri + 1, ci + 2⟩
          else genAttempts cap retries rem (attempt + 1) cur (ri + 1) (ci + 1)
    | .error _ =>
      if attempt < retries then
        match cap.correct ci with
        | .ok c2 => genAttempts cap retries rem (attempt + 1) (clean_sparql c2) (ri + 1) (ci + 1)
        | .error _ => ⟨.error (), ri + 1, ci + 1⟩
      else genAttempts cap retries rem (attempt + 1) cur (ri + 1) ci

/-- `_generate_with_retries` from `backend/generation/generate_sparql.py`. -/
def generate_with_retries (cap : Cap) (retries : Nat) : GenOut :=
  match cap.gen with
  | .error _ => ⟨.ok [], 0, 0⟩
  | .ok raw => genAttempts cap retries retries 0 (clean_sparql raw) 0 0

/-- The loop body of `_generate_with_retries_async` (literal transcription of
the async variant; `await` introduces no data flow). -/
def genAttemptsAsync (cap : Cap) (retries : Nat) :
    Nat → Nat → List Char → Nat → Nat → GenOut
  | 0, _, cur, ri, ci => ⟨.ok cur, ri, ci⟩
  | rem+1, attempt, cur, ri, ci =>
    match cap.review ri with
    | .ok r =>
      if parse_yes_no r then ⟨.ok cur, ri + 1, ci⟩
      else
        match cap.correct ci with
        | .ok c => genAttemptsAsync cap retries rem (attempt + 1) (clean_sparql c) (ri + 1) (ci + 1)
        | .error _ =>
          if attempt < retries then
            match cap.correct (ci + 1) with
            | .ok c2 => genAttemptsAsync cap retries rem (attempt + 1) (clean_sparql c2) (ri + 1) (ci + 2)
            | .error _ => ⟨.error (), ri + 1, ci + 2⟩
          else genAttemptsAsync cap retries rem (attempt + 1) cur (ri + 1) (ci + 1)
    | .error _ =>
      if attempt < retries then
        match cap.correct ci with
        | .ok c2 => genAttemptsAsync cap retries rem (attempt + 1) (clean_sparql c2) (ri + 1) (ci + 1)
        | .error _ => ⟨.error (), ri + 1, ci + 1⟩
      else genAttemptsAsync cap retries rem (attempt + 1) cur (ri + 1) ci

/-- `_generate_with_retries_async` from `backend/generation/generate_sparql.py`. -/
def generate_with_retries_async (cap : Cap) (retries : Nat) : GenOut :=
  match cap.gen with
  | .error _ => ⟨.ok [], 0, 0⟩
  | .ok raw => genAttemptsAsync cap retries retries 0 (clean_sparql raw) 0 0

/-- The default retry budget: the `retries: int = 3` parameter default, also
passed explicitly by the batch driver (`retries=3`). -/
def retriesDefault : Nat := 3

/-- The planner guard of the batch driver `_generate_entries`
(generate_sparql.py line 244): `technique.lower() in "chain_of_thought"` — a
Python substring test, not an equality test. -/
def planner_triggered (technique : List Char) : Bool :=
  pyInStr (technique.map lowerAscii) "chain_of_thought".data

/-! ## Spec-side definitions and concrete stubs used by the claims -/

/-- Whitespace-delimited tokens of a text (the natural reading of the spec's
"standalone token"). -/
def wsTokens (l : List Char) : List (List Char) :=
  (l.splitOnP pyIsSpace).filter (fun w => !w.isEmpty)

/-- The spec's `looks_well_formed`, written from the claim's words: non-empty,
one of the four start keywords as a standalone token or at text start
(keywords matched on the uppercased text), and both braces present. -/
def looksWellFormedClaim (text : List Char) : Prop :=
  text ≠ [] ∧
  (∃ kw ∈ sparqlKws,
      startsWithL kw (text.map upperAscii) = true ∨ kw ∈ wsTokens (text.map upperAscii)) ∧
  cLB ∈ text ∧ cRB ∈ text

/-- The amended reading forced by the code: the keyword must occur at text
start or surrounded by single space characters on both sides. -/
def looksWellFormedAmended (text : List Char) : Prop :=
  text ≠ [] ∧
  (∃ kw ∈ sparqlKws,
      startsWithL kw (text.map upperAscii) = true ∨
      pyInStr (' ' :: (kw ++ [' '])) (text.map upperAscii) = true) ∧
  cLB ∈ text ∧ cRB ∈ text

/-- Does one planner attempt fail to produce a plan (capability exception,
decode failure, validation failure, or an exception out of `parse_plan`)? -/
def planAttemptFails (r : Except Unit (List Char)) : Bool :=
  match r with
  | .error _ => true
  | .ok raw =>
    match parse_plan raw with
    | .ok (some _) => false
    | _ => true

/-- Capability stub whose review always answers `NO` and whose corrections
all succeed (`corr i` is the `i`-th correction reply). -/
def noStub (g : List Char) (corr : Nat → List Char) : Cap :=
  ⟨.ok g, fun _ => .ok "NO".data, fun i => .ok (corr i)⟩

/-- The candidate held after `rem` further all-`NO` round-trips when `ci`
corrections have already been consumed: the last corrected (normalized)
reply, or the current candidate when no round-trip remains. -/
def lastCand (cur : List Char) (corr : Nat → List Char) (ci rem : Nat) : List Char :=
  match rem with
  | 0 => cur
  | m + 1 => clean_sparql (corr (ci + m))

/-- Capability behaviour for which the generation loop's exception handling
breaks: generation succeeds, then every review and correction call raises. -/
def capRaisesBoth : Cap :=
  ⟨.ok "SELECT ?x WHERE \x7b ?x a dbo:Person \x7d".data,
   fun _ => .error (), fun _ => .error ()⟩

/-- Capability stub accepting the first candidate at the first review. -/
def capFirstYes : Cap :=
  ⟨.ok "The SPARQL query is: ASK \x7b dbr:Foo \x7d".data,
   fun _ => .ok " Yes.".data, fun _ => .ok []⟩

end T2S

namespace T2S

/-! ## General helper lemmas -/

theorem startsWithL_nil (l : List Char) : startsWithL [] l = true := rfl

theorem startsWithL_cons_nil (k : Char) (ks : List Char) : startsWithL (k :: ks) [] = false := rfl

theorem startsWithL_cons_cons (k c : Char) (ks cs : List Char) :
    startsWithL (k :: ks) (c :: cs) = (k == c && startsWithL ks cs) := rfl

theorem startsWithL_iff (n l : List Char) : startsWithL n l = true ↔ n <+: l := by
  induction n generalizing l with
  | nil =>
    rw [startsWithL_nil]
    simp only [List.nil_prefix, iff_true]
  | cons k ks ih =>
    cases l with
    | nil =>
      rw [startsWithL_cons_nil]
      simp only [Bool.false_eq_true, false_iff]
      intro h
      exact List.cons_ne_nil k ks (List.prefix_nil.mp h)
    | cons c cs =>
      rw [startsWithL_cons_cons]
      simp only [Bool.and_eq_true, beq_iff_eq, List.cons_prefix_cons, ih]

theorem pyInStr_nil (n : List Char) : pyInStr n [] = n.isEmpty := rfl

theorem pyInStr_cons (n : List Char) (c : Char) (t : List Char) :
    pyInStr n (c :: t) = (startsWithL n (c :: t) || pyInStr n t) := rfl

theorem pyInStr_iff (n h : List Char) : pyInStr n h = true ↔ n <:+: h := by
  induction h with
  | nil =>
    rw [pyInStr_nil]
    simp only [List.isEmpty_iff, List.infix_nil]
  | cons c t ih =>
    rw [pyInStr_cons]
    simp only [Bool.or_eq_true, startsWithL_iff, ih, List.infix_cons_iff]

/-! ## C10 -/

/-- C10: in the batch driver `_generate_entries`, a plan is computed before
prompt building exactly when the lowercased technique string is a contiguous
substring of the literal `chain_of_thought` (a Python `in` test on strings);
so `chain`, `thought`, `of`, and the empty string trigger planning, while
`zero_shot` does not. -/
theorem C10_planner_guard_substring :
    (∀ t, planner_triggered t = true ↔ (t.map lowerAscii) <:+: "chain_of_thought".data) ∧
    planner_triggered "chain".data = true ∧
    planner_triggered "thought".data = true ∧
    planner_triggered "of".data = true ∧
    planner_triggered [] = true ∧
    planner_triggered "chain_of_thought".data = true ∧
    planner_triggered "zero_shot".data = false :=
  ⟨fun t => pyInStr_iff (t.map lowerAscii) ("chain_of_thought".data),
   rfl, rfl, rfl, rfl, rfl, rfl⟩

/-! ## C6 -/

/-- C6 counterexample: the dispatch `_build_prompts` fails for
`graph_of_thought` and `dynamic` instead of returning a placeholder prompt
pair — the claim's placeholder behaviour for these techniques is false. -/
theorem C6_counterexample :
    build_prompts "q".data "graph_of_thought".data none
      = .error (.unsupported "graph_of_thought".data) ∧
    build_prompts "q".data "dynamic".data none
      = .error (.unsupported "dynamic".data) := ⟨rfl, rfl⟩

/-- C6 amended: the prompt dispatch returns a prompt pair exactly for the
techniques `zero_shot` and `chain_of_thought` (matched case-insensitively);
every other technique string, including `graph_of_thought`, `dynamic` and
`tree_of_thought`, fails with the unsupported-technique error. -/
theorem C6_amended_dispatch :
    (∀ q t plan, (∃ pp, build_prompts q t plan = .ok pp) ↔
        (t.map lowerAscii = "zero_shot".data ∨ t.map lowerAscii = "chain_of_thought".data)) ∧
    (∀ q t plan, t.map lowerAscii ≠ "zero_shot".data →
        t.map lowerAscii ≠ "chain_of_thought".data →
        build_prompts q t plan = .error (.unsupported t)) ∧
    build_prompts "q".data "tree_of_thought".data none
      = .error (.unsupported "tree_of_thought".data) := by
  refine ⟨?_, ?_, rfl⟩
  · intro q t plan
    simp only [build_prompts]
    split_ifs with h1 h2
    · simp only [h1, true_or, iff_true]; exact ⟨_, rfl⟩
    · simp only [h2, or_true, iff_true]; exact ⟨_, rfl⟩
    · simp only [h1, h2, or_self, iff_false]
      rintro ⟨pp, hpp⟩
      cases hpp
  · intro q t plan h1 h2
    simp only [build_prompts, if_neg h1, if_neg h2]

/-- C6 witness: the amended dispatch theorem applied at a concrete
mixed-case unsupported technique. -/
theorem C6_witness :
    build_prompts "q".data "Tree_of_Thought".data none
      = .error (.unsupported "Tree_of_Thought".data) :=
  C6_amended_dispatch.2.1 "q".data "Tree_of_Thought".data none (by decide) (by decide)

end T2S

namespace T2S

/-! ## C9 -/

/-- C9 counterexample: `{x} SELECT` contains `SELECT` as a standalone
(whitespace-delimited) token and both braces, yet `validate_sparql_structure`
returns false — the keyword test requires a space character on *both* sides
(or text start), so the claimed iff fails. -/
theorem C9_counterexample :
    validate_sparql_structure ("\x7bx\x7d SELECT".data) = false ∧
    looksWellFormedClaim ("\x7bx\x7d SELECT".data) := by
  constructor
  · rfl
  · constructor
    · decide
    · refine ⟨⟨"SELECT".data, by decide, Or.inr (by decide)⟩, by decide, by decide⟩

/-- C9 amended: `looks_well_formed` is true iff the text is non-empty, the
uppercased text starts with one of the four keywords or contains one
surrounded by single spaces on both sides, and both braces occur. -/
theorem C9_amended_structure_check (text : List Char) :
    validate_sparql_structure text = true ↔ looksWellFormedAmended text := by
  by_cases hemp : text = []
  · subst hemp
    simp only [validate_sparql_structure, looksWellFormedAmended]
    decide
  · have hne : ¬(text.isEmpty = true) := by
      simpa only [List.isEmpty_iff] using hemp
    rw [validate_sparql_structure, if_neg hne]
    simp only [Bool.and_eq_true, Bool.or_eq_true, List.any_eq_true,
      looksWellFormedAmended, List.elem_iff]
    constructor
    · rintro ⟨hkw, hlb, hrb⟩
      refine ⟨hemp, ?_, ?_, ?_⟩
      · rcases hkw with ⟨kw, hmem, hf⟩ | ⟨kw, hmem, hg⟩
        · exact ⟨kw, hmem, Or.inl hf⟩
        · exact ⟨kw, hmem, Or.inr hg⟩
      · exact hlb
      · exact hrb
    · rintro ⟨-, ⟨kw, hmem, hfg⟩, hlb, hrb⟩
      refine ⟨?_, ?_, ?_⟩
      · rcases hfg with hf | hg
        · exact Or.inl ⟨kw, hmem, hf⟩
        · exact Or.inr ⟨kw, hmem, hg⟩
      · exact hlb
      · exact hrb

/-! ## C1 -/

/-- C1: the generation loop does *not* absorb every capability failure.  When
the initial generation succeeds but the first review raises and the
correction issued inside the exception handler raises as well, the exception
escapes `_generate_with_retries` (first conjunct; `.error` is an escaped
exception).  The initial-failure half of the claim does hold: a failing
initial generation returns the empty string (second conjunct). -/
theorem C1_exception_escape :
    (generate_with_retries capRaisesBoth retriesDefault).result = .error () ∧
    (∀ cap retries, cap.gen = .error () →
        generate_with_retries cap retries = ⟨.ok [], 0, 0⟩) := by
  refine ⟨rfl, ?_⟩
  intro cap retries hgen
  rw [generate_with_retries, hgen]

/-- C1 witness: the initial-failure conjunct applied at a concrete capability
whose initial generation raises. -/
theorem C1_witness :
    generate_with_retries ⟨.error (), fun _ => .ok [], fun _ => .ok []⟩ 3 = ⟨.ok [], 0, 0⟩ :=
  C1_exception_escape.2 ⟨.error (), fun _ => .ok [], fun _ => .ok []⟩ 3 rfl

/-! ## C5 -/

/-- C5: when the first review reply is accepted (case-insensitive `YES`
prefix after trimming), the loop returns the initially generated normalized
candidate with zero corrections; `_parse_yes_no` accepts exactly the trimmed
replies whose uppercase starts with `YES`, so every other reply — the empty
string included — is a `NO` verdict. -/
theorem C5_accept_on_yes :
    (∀ cap retries raw r, cap.gen = .ok raw → cap.review 0 = .ok r →
        parse_yes_no r = true → 1 ≤ retries →
        generate_with_retries cap retries = ⟨.ok (clean_sparql raw), 1, 0⟩) ∧
    (∀ s, parse_yes_no s = true ↔
        startsWithL "YES".data ((pstrip s).map upperAscii) = true) ∧
    parse_yes_no [] = false := by
  refine ⟨?_, ?_, rfl⟩
  · intro cap retries raw r hgen hrev hyes hret
    cases retries with
    | zero => omega
    | succ n =>
      rw [generate_with_retries, hgen]
      simp only [genAttempts, hrev, hyes, if_true]
  · intro s
    by_cases hemp : s = []
    · subst hemp; decide
    · have hne : ¬(s.isEmpty = true) := by simpa only [List.isEmpty_iff] using hemp
      rw [parse_yes_no, if_neg hne]
      by_cases hy : startsWithL "YES".data ((pstrip s).map upperAscii) = true
      · simp only [hy, if_true]
      · simp only [Bool.not_eq_true] at hy
        simp only [hy, Bool.false_eq_true, if_false]
        split_ifs <;> simp

/-- C5 witness: the accept-on-yes branch applied at a concrete capability
whose first review reply is ` Yes.`. -/
theorem C5_witness :
    generate_with_retries capFirstYes 3
      = ⟨.ok (clean_sparql ("The SPARQL query is: ASK \x7b dbr:Foo \x7d".data)), 1, 0⟩ :=
  C5_accept_on_yes.1 capFirstYes 3 _ _ rfl rfl (by decide) (by decide)

end T2S

namespace T2S

/-! ## C3 -/

theorem genAttempts_counts (cap : Cap) (retries : Nat) :
    ∀ rem attempt cur ri ci,
      (genAttempts cap retries rem attempt cur ri ci).reviews ≤ ri + rem ∧
      (genAttempts cap retries rem attempt cur ri ci).corrections ≤ ci + 2 * rem := by
  intro rem
  induction rem with
  | zero =>
    intro attempt cur ri ci
    simp only [genAttempts]
    omega
  | succ n ih =>
    intro attempt cur ri ci
    simp only [genAttempts]
    cases hrev : cap.review ri with
    | ok r =>
      by_cases hy : parse_yes_no r = true
      · simp only [hy, if_true]
        omega
      · simp only [Bool.not_eq_true] at hy
        simp only [hy, Bool.false_eq_true, if_false]
        cases hcor : cap.correct ci with
        | ok c =>
          simp only []
          have h := ih (attempt + 1) (clean_sparql c) (ri + 1) (ci + 1)
          omega
        | error e =>
          simp only []
          by_cases ha : attempt < retries
          · simp only [if_pos ha]
            cases hcor2 : cap.correct (ci + 1) with
            | ok c2 =>
              simp only []
              have h := ih (attempt + 1) (clean_sparql c2) (ri + 1) (ci + 2)
              omega
            | error e2 => simp only []; omega
          · simp only [if_neg ha]
            have h := ih (attempt + 1) cur (ri + 1) (ci + 1)
            omega
    | error e =>
      simp only []
      by_cases ha : attempt < retries
      · simp only [if_pos ha]
        cases hcor : cap.correct ci with
        | ok c2 =>
          simp only []
          have h := ih (attempt + 1) (clean_sparql c2) (ri + 1) (ci + 1)
          omega
        | error e2 => simp only []; omega
      · simp only [if_neg ha]
        have h := ih (attempt + 1) cur (ri + 1) ci
        omega

theorem genAttempts_noStub (g : List Char) (corr : Nat → List Char) (retries : Nat) :
    ∀ rem attempt cur ri ci,
      genAttempts (noStub g corr) retries rem attempt cur ri ci =
        ⟨.ok (lastCand cur corr ci rem), ri + rem, ci + rem⟩ := by
  intro rem
  induction rem with
  | zero => intro attempt cur ri ci; rfl
  | succ n ih =>
    intro attempt cur ri ci
    have hrev : (noStub g corr).review ri = .ok ("NO".data) := rfl
    have hcor : (noStub g corr).correct ci = .ok (corr ci) := rfl
    have hno : parse_yes_no ("NO".data) = false := rfl
    simp only [genAttempts, hrev, hcor, hno, Bool.false_eq_true, if_false]
    rw [ih (attempt + 1) (clean_sparql (corr ci)) (ri + 1) (ci + 1)]
    simp only [GenOut.mk.injEq, Except.ok.injEq]
    refine ⟨?_, by omega, by omega⟩
    cases n with
    | zero => simp only [lastCand, Nat.add_zero]
    | succ m =>
      simp only [lastCand]
      have harg : ci + 1 + m = ci + (m + 1) := by omega
      rw [harg]

/-- C3: the generation loop always terminates within the retry budget — at
most `retries` review calls (one per round-trip) and at most `2 * retries`
correction calls for any capability behaviour; with a capability stub always
reviewing `NO`, it performs exactly `retries` reviews and `retries`
corrections and returns the last corrected (normalized) candidate; the
default budget is 3. -/
theorem C3_loop_termination_bounds :
    (∀ cap retries, (generate_with_retries cap retries).reviews ≤ retries ∧
        (generate_with_retries cap retries).corrections ≤ 2 * retries) ∧
    (∀ g corr retries, generate_with_retries (noStub g corr) retries =
        ⟨.ok (lastCand (clean_sparql g) corr 0 retries), retries, retries⟩) ∧
    retriesDefault = 3 := by
  refine ⟨?_, ?_, rfl⟩
  · intro cap retries
    rw [generate_with_retries]
    cases hgen : cap.gen with
    | error e => constructor <;> simp only [] <;> omega
    | ok raw =>
      have h := genAttempts_counts cap retries retries 0 (clean_sparql raw) 0 0
      simp only [Nat.zero_add] at h
      exact h
  · intro g corr retries
    have hgen : (noStub g corr).gen = .ok g := rfl
    rw [generate_with_retries]
    simp only [hgen]
    rw [genAttempts_noStub g corr retries retries 0 (clean_sparql g) 0 0]
    simp only [Nat.zero_add]

/-! ## C8 -/

theorem genAttemptsAsync_eq (cap : Cap) (retries : Nat) :
    ∀ rem attempt cur ri ci,
      genAttemptsAsync cap retries rem attempt cur ri ci =
        genAttempts cap retries rem attempt cur ri ci := by
  intro rem
  induction rem with
  | zero => intro attempt cur ri ci; rfl
  | succ n ih =>
    intro attempt cur ri ci
    simp only [genAttempts, genAttemptsAsync]
    cases hrev : cap.review ri with
    | ok r =>
      by_cases hy : parse_yes_no r = true
      · simp only [hy, if_true]
      · simp only [Bool.not_eq_true] at hy
        simp only [hy, Bool.false_eq_true, if_false]
        cases hcor : cap.correct ci with
        | ok c => exact ih (attempt + 1) (clean_sparql c) (ri + 1) (ci + 1)
        | error e =>
          by_cases ha : attempt < retries
          · simp only [if_pos ha]
            cases hcor2 : cap.correct (ci + 1) with
            | ok c2 => exact ih (attempt + 1) (clean_sparql c2) (ri + 1) (ci + 2)
            | error e2 => rfl
          · simp only [if_neg ha]
            exact ih (attempt + 1) cur (ri + 1) (ci + 1)
    | error e =>
      by_cases ha : attempt < retries
      · simp only [if_pos ha]
        cases hcor : cap.correct ci with
        | ok c2 => exact ih (attempt + 1) (clean_sparql c2) (ri + 1) (ci + 1)
        | error e2 => rfl
      · simp only [if_neg ha]
        exact ih (attempt + 1) cur (ri + 1) ci

theorem planAttemptsAsync_eq (oracle : Nat → Except Unit (List Char)) :
    ∀ rem attempt,
      planAttemptsAsync oracle rem attempt = planAttempts oracle rem attempt := by
  intro rem
  induction rem with
  | zero => intro attempt; rfl
  | succ n ih =>
    intro attempt
    simp only [planAttempts, planAttemptsAsync]
    cases oracle attempt with
    | error e => exact ih (attempt + 1)
    | ok raw =>
      simp only []
      cases parse_plan raw with
      | error e => exact ih (attempt + 1)
      | ok o =>
        cases o with
        | none => exact ih (attempt + 1)
        | some pl => rfl

/-- C8: the blocking and asynchronous variants of the generation loop and of
the planner compute identical results for every retry budget and every
capability behaviour (reply/exception trace). -/
theorem C8_sync_async_equiv :
    (∀ cap retries,
        generate_with_retries_async cap retries = generate_with_retries cap retries) ∧
    (∀ oracle retries,
        plan_question_async oracle retries = plan_question_sync oracle retries) := by
  constructor
  · intro cap retries
    rw [generate_with_retries, generate_with_retries_async]
    cases cap.gen with
    | error e => rfl
    | ok raw => exact genAttemptsAsync_eq cap retries retries 0 (clean_sparql raw) 0 0
  · intro oracle retries
    rw [plan_question_sync, plan_question_async, planAttemptsAsync_eq]

/-! ## C4 -/

theorem planAttempts_none (oracle : Nat → Except Unit (List Char)) :
    ∀ rem attempt,
      (∀ i, attempt ≤ i → i < attempt + rem → planAttemptFails (oracle i) = true) →
      planAttempts oracle rem attempt = none := by
  intro rem
  induction rem with
  | zero => intro attempt _; rfl
  | succ n ih =>
    intro attempt h
    have h0 := h attempt (Nat.le_refl _) (by omega)
    simp only [planAttempts]
    cases horc : oracle attempt with
    | error e => exact ih (attempt + 1) (fun i h1 h2 => h i (by omega) (by omega))
    | ok raw =>
      simp only []
      rw [horc] at h0
      simp only [planAttemptFails] at h0
      cases hp : parse_plan raw with
      | error e => exact ih (attempt + 1) (fun i h1 h2 => h i (by omega) (by omega))
      | ok o =>
        cases o with
        | none => exact ih (attempt + 1) (fun i h1 h2 => h i (by omega) (by omega))
        | some pl =>
          rw [hp] at h0
          simp only [] at h0
          exact Bool.noConfusion h0

/-- C4: the planner never fails outward (its model is a total function into
plans, with every capability exception and parse failure absorbed), and when
every attempt fails — by exception, decode failure, or validation failure —
both the blocking and the asynchronous variant return the all-empty plan. -/
theorem C4_planner_total_default (oracle : Nat → Except Unit (List Char)) (retries : Nat)
    (h : ∀ i, i < retries → planAttemptFails (oracle i) = true) :
    plan_question_sync oracle retries = emptyPlan ∧
    plan_question_async oracle retries = emptyPlan := by
  have hs := planAttempts_none oracle retries 0 (fun i _ h2 => h i (by omega))
  constructor
  · rw [plan_question_sync, hs]
    rfl
  · rw [plan_question_async, planAttemptsAsync_eq, hs]
    rfl

/-- C4 witness: two attempts whose replies decode to no valid JSON object
yield the all-empty plan. -/
theorem C4_witness :
    plan_question_sync (fun _ => .ok "junk".data) 2 = emptyPlan := by
  have hf : planAttemptFails (.ok "junk".data) = true := by decide
  exact (C4_planner_total_default (fun _ => .ok "junk".data) 2 (fun _ _ => hf)).1

end T2S

namespace T2S

/-! ## C7 -/

theorem getOrV_none (kvs : List (List Char × PyVal)) (k : List Char) (fb : PyVal)
    (h : pyGet kvs k = none) : getOrV kvs k fb = fb := by
  simp only [getOrV, h]

theorem getOrV_list_nilfb (kvs : List (List Char × PyVal)) (k : List Char) (es : List PyVal)
    (h : pyGet kvs k = some (.varr es)) : getOrV kvs k (.varr []) = .varr es := by
  simp only [getOrV, h, pyTruthy]
  cases es with
  | nil => simp
  | cons a t => simp

theorem getOrV_list_truthy (kvs : List (List Char × PyVal)) (k : List Char) (fb : PyVal)
    (ts : List PyVal) (h : pyGet kvs k = some (.varr ts)) (hne : ts ≠ []) :
    getOrV kvs k fb = .varr ts := by
  simp only [getOrV, h, pyTruthy]
  cases ts with
  | nil => exact absurd rfl hne
  | cons a t => simp

/-- C7: the planner's response validation.  Concretely, the documented
scenario reply parses to a Plan with one entity record, zero relations, and
one reasoning step.  Generally, over any decoded object: a missing
`entities`/`relations` key yields an empty sequence, a missing
`chain_of_thought` key together with a missing legacy `plan` key yields an
empty reasoning sequence; entity/relation elements that are not key-value
records are discarded; reasoning elements are coerced to text (string
elements map to themselves). -/
theorem C7_parse_plan_validation :
    parse_plan ("Sure! \x7b\"entities\": [\x7b\"text\":\"Paris\",\"uri\":\"dbr:Paris\"\x7d], \"relations\": [], \"chain_of_thought\": [\"find capital\"]\x7d".data)
      = .ok (some ⟨[.vobj [("text".data, .vstr "Paris".data), ("uri".data, .vstr "dbr:Paris".data)]],
                   [], ["find capital".data]⟩) ∧
    (∀ kvs out, validatePlanObj kvs = some out →
        (pyGet kvs "entities".data = none → out.entities = []) ∧
        (pyGet kvs "relations".data = none → out.relations = []) ∧
        (pyGet kvs "chain_of_thought".data = none → pyGet kvs "plan".data = none →
            out.chain_of_thought = [])) ∧
    (∀ kvs es rs ts, pyGet kvs "entities".data = some (.varr es) →
        pyGet kvs "relations".data = some (.varr rs) →
        pyGet kvs "chain_of_thought".data = some (.varr ts) → ts ≠ [] →
        validatePlanObj kvs = some ⟨es.filter isObjV, rs.filter isObjV, ts.map pyStr⟩) ∧
    (∀ s, pyStr (.vstr s) = s) := by
  refine ⟨rfl, ?_, ?_, fun s => rfl⟩
  · intro kvs out h
    refine ⟨?_, ?_, ?_⟩
    · intro hent
      rw [validatePlanObj, getOrV_none kvs _ _ hent] at h
      cases hr : getOrV kvs ("relations".data) (.varr []) <;> rw [hr] at h
      case varr rs =>
        cases ht : getOrV kvs ("chain_of_thought".data)
            (getOrV kvs ("plan".data) (.varr [])) <;> rw [ht] at h
        case varr ts =>
          simp only [Option.some.injEq] at h
          rw [← h]
          rfl
        all_goals exact Option.noConfusion h
      all_goals exact Option.noConfusion h
    · intro hrel
      rw [validatePlanObj, getOrV_none kvs _ _ hrel] at h
      cases he : getOrV kvs ("entities".data) (.varr []) <;> rw [he] at h
      case varr es =>
        cases ht : getOrV kvs ("chain_of_thought".data)
            (getOrV kvs ("plan".data) (.varr [])) <;> rw [ht] at h
        case varr ts =>
          simp only [Option.some.injEq] at h
          rw [← h]
          rfl
        all_goals exact Option.noConfusion h
      all_goals exact Option.noConfusion h
    · intro hcot hplan
      rw [validatePlanObj, getOrV_none kvs _ _ hcot, getOrV_none kvs _ _ hplan] at h
      cases he : getOrV kvs ("entities".data) (.varr []) <;> rw [he] at h
      case varr es =>
        cases hr : getOrV kvs ("relations".data) (.varr []) <;> rw [hr] at h
        case varr rs =>
          simp only [Option.some.injEq] at h
          rw [← h]
          rfl
        all_goals exact Option.noConfusion h
      all_goals exact Option.noConfusion h
  · intro kvs es rs ts hes hrs hts htne
    rw [validatePlanObj, getOrV_list_nilfb kvs _ _ hes, getOrV_list_nilfb kvs _ _ hrs,
      getOrV_list_truthy kvs _ _ _ hts htne]

/-- C7 witness: the general validation conjuncts applied at a concrete
decoded object holding a non-record entity, a record entity, and mixed
reasoning elements. -/
theorem C7_witness :
    validatePlanObj
        [("entities".data, .varr [.vint 1, .vobj [("text".data, .vstr "x".data)]]),
         ("relations".data, .varr []),
         ("chain_of_thought".data, .varr [.vstr "s".data, .vint 2])]
      = some ⟨[.vobj [("text".data, .vstr "x".data)]], [], ["s".data, "2".data]⟩ :=
  C7_parse_plan_validation.2.2.1
    [("entities".data, .varr [.vint 1, .vobj [("text".data, .vstr "x".data)]]),
     ("relations".data, .varr []),
     ("chain_of_thought".data, .varr [.vstr "s".data, .vint 2])]
    _ _ _ rfl rfl rfl (List.cons_ne_nil _ _)

end T2S
namespace T2S

/-! ## Character-level facts -/

theorem charToNat_ofNat {n : Nat} (h : n.isValidChar) : (Char.ofNat n).toNat = n := by
  unfold Char.ofNat
  rw [dif_pos h]
  unfold Char.ofNatAux Char.toNat
  simp [UInt32.toNat, BitVec.toNat_ofNatLt]

theorem charEq_of_toNat {c d : Char} (h : c.toNat = d.toNat) : c = d := by
  apply Char.eq_of_val_eq
  apply UInt32.eq_of_toBitVec_eq
  exact BitVec.eq_of_toNat_eq h

theorem charEq_iff_toNat {c d : Char} : c = d ↔ c.toNat = d.toNat :=
  ⟨fun h => h ▸ rfl, charEq_of_toNat⟩

theorem lowerAscii_toNat (c : Char) :
    (lowerAscii c).toNat = if 65 ≤ c.toNat ∧ c.toNat ≤ 90 then c.toNat + 32 else c.toNat := by
  rw [lowerAscii]
  by_cases h : 65 ≤ c.toNat ∧ c.toNat ≤ 90
  · have hb : (65 ≤ c.toNat && c.toNat ≤ 90) = true := by
      simp only [Bool.and_eq_true, decide_eq_true_eq]
      exact h
    rw [if_pos hb, if_pos h]
    exact charToNat_ofNat (Or.inl (by omega))
  · have hb : ¬((65 ≤ c.toNat && c.toNat ≤ 90) = true) := by
      simp only [Bool.and_eq_true, decide_eq_true_eq]
      exact h
    rw [if_neg hb, if_neg h]

theorem pyIsSpace_iff (c : Char) :
    pyIsSpace c = true ↔
      (c.toNat = 32 ∨ c.toNat = 9 ∨ c.toNat = 10 ∨ c.toNat = 13 ∨
       c.toNat = 11 ∨ c.toNat = 12) := by
  simp only [pyIsSpace, Bool.or_eq_true, beq_iff_eq, charEq_iff_toNat,
    show (' ').toNat = 32 from rfl, show ('\t').toNat = 9 from rfl,
    show ('\n').toNat = 10 from rfl, show ('\r').toNat = 13 from rfl,
    show (Char.ofNat 11).toNat = 11 from rfl, show (Char.ofNat 12).toNat = 12 from rfl]
  tauto

theorem wordChar_iff (c : Char) :
    wordChar c = true ↔
      ((65 ≤ c.toNat ∧ c.toNat ≤ 90) ∨ (97 ≤ c.toNat ∧ c.toNat ≤ 122) ∨
       (48 ≤ c.toNat ∧ c.toNat ≤ 57) ∨ c.toNat = 95) := by
  simp only [wordChar, Bool.or_eq_true, Bool.and_eq_true, decide_eq_true_eq, beq_iff_eq,
    charEq_iff_toNat, show ('_').toNat = 95 from rfl]
  tauto

/-- A character case-insensitively equal to a lowercase letter is a letter:
not whitespace, a word character, and in particular not a closing brace. -/
theorem ciChar_facts {c k : Char} (hk : lcLetter k = true)
    (h : lowerAscii c = lowerAscii k) :
    pyIsSpace c = false ∧ wordChar c = true := by
  simp only [lcLetter, Bool.and_eq_true, decide_eq_true_eq] at hk
  have htn := congrArg Char.toNat h
  rw [lowerAscii_toNat, lowerAscii_toNat] at htn
  have hkk : (if 65 ≤ k.toNat ∧ k.toNat ≤ 90 then k.toNat + 32 else k.toNat) = k.toNat :=
    if_neg (by omega)
  rw [hkk] at htn
  by_cases hc : 65 ≤ c.toNat ∧ c.toNat ≤ 90
  · rw [if_pos hc] at htn
    constructor
    · cases hsp : pyIsSpace c with
      | false => rfl
      | true => exact absurd ((pyIsSpace_iff c).mp hsp) (by omega)
    · exact (wordChar_iff c).mpr (Or.inl hc)
  · rw [if_neg hc] at htn
    constructor
    · cases hsp : pyIsSpace c with
      | false => rfl
      | true => exact absurd ((pyIsSpace_iff c).mp hsp) (by omega)
    · exact (wordChar_iff c).mpr (Or.inr (Or.inl (by omega)))

theorem wordChar_ne_rbrace {c : Char} (h : wordChar c = true) : c ≠ cRB := by
  intro he
  subst he
  have hx := (wordChar_iff cRB).mp h
  rw [show cRB.toNat = 125 from rfl] at hx
  omega

/-! ## `stripCI` decomposition -/

theorem stripCI_nil_pat (l : List Char) : stripCI [] l = some l := rfl

theorem stripCI_cons_nil (k : Char) (ks : List Char) : stripCI (k :: ks) [] = none := rfl

theorem stripCI_cons_cons (k c : Char) (ks cs : List Char) :
    stripCI (k :: ks) (c :: cs) =
      if lowerAscii c == lowerAscii k then stripCI ks cs else none := rfl

/-- `stripCI kw l = some r` exactly when `l` splits as a case-insensitive copy
of `kw` followed by `r`. -/
theorem stripCI_some_iff (kw l r : List Char) :
    stripCI kw l = some r ↔
      ∃ m, l = m ++ r ∧ m.map lowerAscii = kw.map lowerAscii := by
  induction kw generalizing l with
  | nil =>
    rw [stripCI_nil_pat]
    simp only [Option.some.injEq, List.map_eq_nil_iff]
    constructor
    · rintro rfl
      exact ⟨[], rfl, rfl⟩
    · rintro ⟨m, hm, hmap⟩
      have : m = [] := by
        cases m with
        | nil => rfl
        | cons a t => exact absurd hmap (by simp)
      subst this
      simpa using hm
  | cons k ks ih =>
    cases l with
    | nil =>
      rw [stripCI_cons_nil]
      simp only [false_iff, reduceCtorEq]
      rintro ⟨m, hm, hmap⟩
      cases m with
      | nil => exact absurd hmap (by simp)
      | cons a t => exact List.noConfusion hm
    | cons c cs =>
      rw [stripCI_cons_cons]
      by_cases hc : lowerAscii c = lowerAscii k
      · rw [if_pos (by simpa using hc), ih]
        constructor
        · rintro ⟨m, hm, hmap⟩
          exact ⟨c :: m, by simp [hm], by simp [hmap, hc]⟩
        · rintro ⟨m, hm, hmap⟩
          cases m with
          | nil => exact absurd hmap (by simp)
          | cons a t =>
            simp only [List.cons_append, List.cons.injEq] at hm
            simp only [List.map_cons, List.cons.injEq] at hmap
            exact ⟨t, hm.2, by rw [hmap.2]⟩
      · rw [if_neg (by simpa using hc)]
        simp only [false_iff, reduceCtorEq]
        rintro ⟨m, hm, hmap⟩
        cases m with
        | nil => exact absurd hmap (by simp)
        | cons a t =>
          simp only [List.cons_append, List.cons.injEq] at hm
          simp only [List.map_cons, List.cons.injEq] at hmap
          exact hc (hm.1 ▸ hmap.1)

theorem stripCI_exact {kw m : List Char} (z : List Char)
    (hmap : m.map lowerAscii = kw.map lowerAscii) : stripCI kw (m ++ z) = some z :=
  (stripCI_some_iff kw (m ++ z) z).mpr ⟨m, rfl, hmap⟩

theorem stripCI_suffix {kw l r : List Char} (h : stripCI kw l = some r) : r <:+ l := by
  obtain ⟨m, hm, -⟩ := (stripCI_some_iff kw l r).mp h
  exact ⟨m, hm.symm⟩

end T2S
namespace T2S

/-! ## Strip lemmas -/

theorem lstrip_cons (c : Char) (t : List Char) :
    lstrip (c :: t) = if pyIsSpace c then lstrip t else c :: t := by
  simp only [lstrip, List.dropWhile_cons]

theorem lstrip_cons_nonws {c : Char} {t : List Char} (h : pyIsSpace c = false) :
    lstrip (c :: t) = c :: t := by
  rw [lstrip_cons, h]
  rfl

theorem lstrip_suffix (l : List Char) : lstrip l <:+ l := List.dropWhile_suffix pyIsSpace

theorem lstrip_head_nonws (l : List Char) {c : Char} (h : (lstrip l).head? = some c) :
    pyIsSpace c = false := by
  induction l with
  | nil => exact absurd h (by simp [lstrip])
  | cons a t ih =>
    rw [lstrip_cons] at h
    by_cases ha : pyIsSpace a = true
    · rw [if_pos ha] at h; exact ih h
    · rw [if_neg ha] at h
      simp only [List.head?_cons, Option.some.injEq] at h
      subst h
      simpa using ha

theorem lstrip_idem (l : List Char) : lstrip (lstrip l) = lstrip l := by
  cases hl : lstrip l with
  | nil => rfl
  | cons a t =>
    have ha : pyIsSpace a = false := lstrip_head_nonws l (by rw [hl]; rfl)
    rw [lstrip_cons_nonws ha]

theorem rstrip_pre (l : List Char) : rstrip l <+: l := by
  rw [rstrip, ← List.reverse_reverse l]
  exact List.reverse_prefix.mpr (by rw [List.reverse_reverse]; exact lstrip_suffix l.reverse)

theorem rstrip_decomp (l : List Char) :
    ∃ w, l = rstrip l ++ w ∧ ∀ c ∈ w, pyIsSpace c = true := by
  refine ⟨(l.reverse.takeWhile pyIsSpace).reverse, ?_, ?_⟩
  · conv_lhs => rw [← List.reverse_reverse l,
      ← List.takeWhile_append_dropWhile (p := pyIsSpace) (l := l.reverse)]
    rw [List.reverse_append]
    rfl
  · intro c hc
    rw [List.mem_reverse] at hc
    exact List.mem_takeWhile_imp hc

theorem rstrip_eq_self {l : List Char} {c : Char} (h : l.getLast? = some c)
    (hc : pyIsSpace c = false) : rstrip l = l := by
  rw [rstrip]
  rw [← List.head?_reverse] at h
  cases hr : l.reverse with
  | nil => rw [hr] at h; exact absurd h (by simp)
  | cons a t =>
    rw [hr] at h
    simp only [List.head?_cons, Option.some.injEq] at h
    subst h
    rw [List.dropWhile_cons_of_neg (by simp [hc]), ← hr, List.reverse_reverse]

theorem rstrip_idem (l : List Char) : rstrip (rstrip l) = rstrip l := by
  rw [rstrip, rstrip, List.reverse_reverse]
  exact congrArg List.reverse (lstrip_idem l.reverse)

theorem lstrip_rstrip_comm (l : List Char) (h : lstrip l = l) :
    lstrip (rstrip l) = rstrip l := by
  cases hr : rstrip l with
  | nil => rfl
  | cons a t =>
    have hpre := rstrip_pre l
    rw [hr] at hpre
    obtain ⟨s, hs⟩ := hpre
    have hhead : l.head? = some a := by rw [← hs]; rfl
    have ha : pyIsSpace a = false := by
      apply lstrip_head_nonws l
      rw [h, hhead]
    exact lstrip_cons_nonws ha

theorem pstrip_idem (l : List Char) : pstrip (pstrip l) = pstrip l := by
  rw [pstrip, pstrip, lstrip_rstrip_comm (lstrip l) (lstrip_idem l), rstrip_idem]

/-! ## Collapse lemmas -/

theorem collapse_single (c : Char) : collapse [c] = if pyIsSpace c then [' '] else [c] := rfl

theorem collapse_cons_cons (c d : Char) (t : List Char) :
    collapse (c :: d :: t) =
      if pyIsSpace c then
        if pyIsSpace d then collapse (d :: t) else ' ' :: collapse (d :: t)
      else c :: collapse (d :: t) := rfl

theorem collapse_ne_nil {l : List Char} (h : l ≠ []) : collapse l ≠ [] := by
  induction l with
  | nil => exact absurd rfl h
  | cons c t ih =>
    cases t with
    | nil =>
      rw [collapse_single]
      split_ifs <;> simp
    | cons d r =>
      rw [collapse_cons_cons]
      split_ifs with h1 h2
      · exact ih (by simp)
      · simp
      · simp

theorem collapse_head? (l : List Char) :
    (collapse l).head? = l.head?.map (fun c => if pyIsSpace c then ' ' else c) := by
  induction l with
  | nil => rfl
  | cons c t ih =>
    cases t with
    | nil =>
      rw [collapse_single]
      split_ifs with h1 <;> simp [h1]
    | cons d r =>
      rw [collapse_cons_cons]
      split_ifs with h1 h2
      · rw [ih]
        simp [h1, h2]
      · simp [h1]
      · simp [h1]

theorem collapse_cons_nonws {c : Char} (t : List Char) (h : pyIsSpace c = false) :
    collapse (c :: t) = c :: collapse t := by
  cases t with
  | nil => rw [collapse_single, h]; rfl
  | cons d r => rw [collapse_cons_cons, h]; rfl

theorem collapse_append_nonws {m : List Char} (r : List Char)
    (h : ∀ c ∈ m, pyIsSpace c = false) : collapse (m ++ r) = m ++ collapse r := by
  induction m with
  | nil => rfl
  | cons c t ih =>
    rw [List.cons_append, collapse_cons_nonws _ (h c (by simp)),
      ih (fun c hc => h c (by simp [hc])), List.cons_append]

/-- Uniform cons law for `isCollapsed`. -/
theorem isCollapsed_cons (c : Char) (t : List Char) :
    isCollapsed (c :: t) =
      ((!pyIsSpace c || (c == ' ' && t.head?.all (fun d => !pyIsSpace d))) &&
        isCollapsed t) := by
  cases t with
  | nil =>
    rw [isCollapsed]
    simp only [List.head?_nil, Option.all_none, Bool.and_true]
    rfl
  | cons d r => rfl

theorem isCollapsed_tail {c : Char} {t : List Char} (h : isCollapsed (c :: t) = true) :
    isCollapsed t = true := by
  rw [isCollapsed_cons] at h
  exact ((Bool.and_eq_true ..).mp h).2

theorem isCollapsed_suffix {s l : List Char} (hs : s <:+ l) (h : isCollapsed l = true) :
    isCollapsed s = true := by
  induction l with
  | nil => rw [List.suffix_nil.mp hs]; rfl
  | cons c t ih =>
    rcases List.suffix_cons_iff.mp hs with heq | hsuf
    · rw [heq]; exact h
    · exact ih hsuf (isCollapsed_tail h)

theorem head?_take {l : List Char} {m : Nat} (h : m ≠ 0) : (l.take m).head? = l.head? := by
  cases l with
  | nil => simp
  | cons c t =>
    cases m with
    | zero => exact absurd rfl h
    | succ p => simp [List.take_succ_cons]

theorem isCollapsed_take {l : List Char} (h : isCollapsed l = true) (n : Nat) :
    isCollapsed (l.take n) = true := by
  induction l generalizing n with
  | nil => rw [List.take_nil]; rfl
  | cons c t ih =>
    cases n with
    | zero => rfl
    | succ m =>
      rw [List.take_succ_cons, isCollapsed_cons]
      rw [isCollapsed_cons] at h
      simp only [Bool.and_eq_true] at h ⊢
      refine ⟨?_, ih h.2 m⟩
      rcases (Bool.or_eq_true _ _).mp h.1 with h1 | h1
      · exact (Bool.or_eq_true _ _).mpr (Or.inl h1)
      · simp only [Bool.and_eq_true] at h1
        refine (Bool.or_eq_true _ _).mpr (Or.inr ?_)
        simp only [Bool.and_eq_true]
        refine ⟨h1.1, ?_⟩
        by_cases hm : m = 0
        · subst hm
          simp
        · rw [head?_take hm]
          exact h1.2

theorem isCollapsed_pre {s l : List Char} (hs : s <+: l) (h : isCollapsed l = true) :
    isCollapsed s = true := by
  obtain ⟨n, hn⟩ : ∃ n, s = l.take n := ⟨s.length, (List.prefix_iff_eq_take.mp hs)⟩
  rw [hn]
  exact isCollapsed_take h n

theorem isCollapsed_collapse (l : List Char) : isCollapsed (collapse l) = true := by
  induction l with
  | nil => rfl
  | cons c t ih =>
    cases t with
    | nil =>
      rw [collapse_single]
      split_ifs with h1 <;> simp [isCollapsed, h1]
    | cons d r =>
      rw [collapse_cons_cons]
      split_ifs with h1 h2
      · exact ih
      · rw [isCollapsed_cons]
        simp only [Bool.and_eq_true]
        refine ⟨?_, ih⟩
        refine (Bool.or_eq_true _ _).mpr (Or.inr ?_)
        simp only [Bool.and_eq_true]
        refine ⟨by rfl, ?_⟩
        rw [collapse_head?]
        simp [h2]
      · rw [isCollapsed_cons]
        simp only [Bool.and_eq_true]
        exact ⟨(Bool.or_eq_true _ _).mpr (Or.inl (by simp [h1])), ih⟩

theorem collapse_eq_self {l : List Char} (h : isCollapsed l = true) : collapse l = l := by
  induction l with
  | nil => rfl
  | cons c t ih =>
    have ht := ih (isCollapsed_tail h)
    rw [isCollapsed_cons] at h
    simp only [Bool.and_eq_true] at h
    rcases (Bool.or_eq_true _ _).mp h.1 with h1 | h1
    · rw [collapse_cons_nonws _ (by simpa using h1), ht]
    · simp only [Bool.and_eq_true, beq_iff_eq] at h1
      obtain ⟨hc, hd⟩ := h1
      subst hc
      cases t with
      | nil => rfl
      | cons d r =>
        simp only [List.head?_cons, Option.all_some] at hd
        rw [collapse_cons_cons]
        rw [if_pos (show pyIsSpace ' ' = true from rfl), if_neg (by simpa using hd), ht]

end T2S
namespace T2S

/-! ## Keyword-match machinery -/

theorem mem_of_getLast? {l : List Char} {a : Char} (h : l.getLast? = some a) : a ∈ l := by
  cases l with
  | nil => simp at h
  | cons c t =>
    rw [List.getLast?_eq_getLast _ (by simp)] at h
    simp only [Option.some.injEq] at h
    rw [← h]
    exact List.getLast_mem _

theorem getLast?_of_suffix {s l : List Char} (hs : s <:+ l) (hne : s ≠ []) :
    l.getLast? = s.getLast? := by
  obtain ⟨w, rfl⟩ := hs
  exact List.getLast?_append_of_ne_nil _ hne

theorem head?_of_pre {s l : List Char} (hs : s <+: l) (hne : s ≠ []) :
    l.head? = s.head? := by
  obtain ⟨w, rfl⟩ := hs
  cases s with
  | nil => exact absurd rfl hne
  | cons c t => rfl

theorem kwList_ok : ∀ kw ∈ kwList, kw ≠ [] ∧ (∀ c ∈ kw, lcLetter c = true) ∧ 3 ≤ kw.length := by
  decide

theorem ws_not_word {c : Char} (h : pyIsSpace c = true) : wordChar c = false := by
  have h1 := (pyIsSpace_iff c).mp h
  cases hw : wordChar c with
  | false => rfl
  | true => exact absurd ((wordChar_iff c).mp hw) (by omega)

/-- Boundary condition of a keyword match: the remainder after the keyword is
empty or begins with a non-word character (`\b`). -/
theorem kwAt1_elim {kw l : List Char} (h : kwAt1 kw l = true) :
    ∃ r, stripCI kw l = some r ∧
      (r = [] ∨ ∃ c t, r = c :: t ∧ wordChar c = false) := by
  rw [kwAt1] at h
  cases hs : stripCI kw l with
  | none => rw [hs] at h; exact Bool.noConfusion h
  | some r =>
    rw [hs] at h
    refine ⟨r, rfl, ?_⟩
    cases r with
    | nil => exact Or.inl rfl
    | cons c t =>
      simp only [Bool.not_eq_eq_eq_not, Bool.not_true] at h
      exact Or.inr ⟨c, t, rfl, h⟩

theorem kwAt1_intro {kw l r : List Char} (hs : stripCI kw l = some r)
    (hb : r = [] ∨ ∃ c t, r = c :: t ∧ wordChar c = false) : kwAt1 kw l = true := by
  rw [kwAt1, hs]
  rcases hb with rfl | ⟨c, t, rfl, hc⟩
  · rfl
  · simp [hc]

theorem kwAt_iff (l : List Char) : kwAt l = true ↔ ∃ kw ∈ kwList, kwAt1 kw l = true := by
  rw [kwAt, List.any_eq_true]

/-- The case-insensitive copy of a keyword consists of letters. -/
theorem ciMap_facts {m kw : List Char} (hmem : kw ∈ kwList)
    (hmap : m.map lowerAscii = kw.map lowerAscii) :
    ∀ c ∈ m, pyIsSpace c = false ∧ wordChar c = true := by
  intro c hc
  have : lowerAscii c ∈ kw.map lowerAscii := by
    rw [← hmap]
    exact List.mem_map_of_mem lowerAscii hc
  obtain ⟨k, hk, hck⟩ := List.mem_map.mp this
  exact ciChar_facts ((kwList_ok kw hmem).2.1 k hk) hck.symm

theorem ciMap_ne_nil {m kw : List Char} (hmem : kw ∈ kwList)
    (hmap : m.map lowerAscii = kw.map lowerAscii) : m ≠ [] := by
  intro he
  subst he
  have hlen := congrArg List.length hmap
  simp only [List.length_map, List.length_nil] at hlen
  have := (kwList_ok kw hmem).2.2
  omega

theorem ciMap_getLast {m kw : List Char} (hmem : kw ∈ kwList)
    (hmap : m.map lowerAscii = kw.map lowerAscii) :
    ∃ x, m.getLast? = some x ∧ pyIsSpace x = false ∧ wordChar x = true := by
  have hne := ciMap_ne_nil hmem hmap
  cases hm : m.getLast? with
  | none =>
    rw [List.getLast?_eq_getLast _ hne] at hm
    exact Option.noConfusion hm
  | some x => exact ⟨x, rfl, ciMap_facts hmem hmap x (mem_of_getLast? hm)⟩

theorem kwAt_min_len {l : List Char} (h : kwAt l = true) : 3 ≤ l.length := by
  obtain ⟨kw, hmem, h1⟩ := (kwAt_iff l).mp h
  obtain ⟨r, hs, -⟩ := kwAt1_elim h1
  obtain ⟨m, rfl, hmap⟩ := (stripCI_some_iff kw l r).mp hs
  have hlen := congrArg List.length hmap
  simp only [List.length_map] at hlen
  have := (kwList_ok kw hmem).2.2
  simp only [List.length_append]
  omega

theorem kwAt_nil : kwAt [] = false := by decide

theorem kwAt_ws_head {c : Char} {t : List Char} (hc : pyIsSpace c = true) :
    kwAt (c :: t) = false := by
  cases hk : kwAt (c :: t) with
  | false => rfl
  | true =>
    obtain ⟨kw, hmem, h1⟩ := (kwAt_iff _).mp hk
    obtain ⟨r, hs, -⟩ := kwAt1_elim h1
    obtain ⟨m, hm, hmap⟩ := (stripCI_some_iff kw _ r).mp hs
    cases m with
    | nil => exact absurd hmap.symm (by simpa using ciMap_ne_nil hmem hmap)
    | cons a t2 =>
      have ha : a = c := by
        have h2 := congrArg List.head? hm
        simp only [List.head?_cons, List.cons_append, Option.some.injEq] at h2
        exact h2.symm
      have := (ciMap_facts hmem hmap a (by simp)).1
      rw [ha, hc] at this
      exact Bool.noConfusion this

theorem kwAt_head_nonws {l : List Char} (h : kwAt l = true) :
    ∃ c t, l = c :: t ∧ pyIsSpace c = false := by
  cases l with
  | nil => rw [kwAt_nil] at h; exact Bool.noConfusion h
  | cons c t =>
    refine ⟨c, t, rfl, ?_⟩
    cases hc : pyIsSpace c with
    | false => rfl
    | true => rw [kwAt_ws_head hc] at h; exact Bool.noConfusion h

theorem findKw_cons (c : Char) (t : List Char) :
    findKw (c :: t) = if kwAt (c :: t) then some (c :: t) else findKw t := rfl

theorem findKw_none_iff (l : List Char) :
    findKw l = none ↔ ∀ s, s <:+ l → kwAt s = false := by
  induction l with
  | nil =>
    constructor
    · intro _ s hs
      rw [List.suffix_nil.mp hs]
      exact kwAt_nil
    · intro _; rfl
  | cons c t ih =>
    rw [findKw_cons]
    by_cases hk : kwAt (c :: t) = true
    · rw [if_pos hk]
      simp only [reduceCtorEq, false_iff, not_forall]
      push_neg
      exact ⟨c :: t, List.suffix_refl _, by simp [hk]⟩
    · have hkf : kwAt (c :: t) = false := by simpa using hk
      rw [if_neg (by simp [hkf]), ih]
      constructor
      · intro hall s hs
        rcases List.suffix_cons_iff.mp hs with rfl | hsuf
        · exact hkf
        · exact hall s hsuf
      · intro hall s hs
        exact hall s (hs.trans (List.suffix_cons c t))

theorem findKw_some {l s : List Char} (h : findKw l = some s) :
    s <:+ l ∧ kwAt s = true := by
  induction l with
  | nil => exact Option.noConfusion h
  | cons c t ih =>
    rw [findKw_cons] at h
    by_cases hk : kwAt (c :: t) = true
    · rw [if_pos hk] at h
      simp only [Option.some.injEq] at h
      subst h
      exact ⟨List.suffix_refl _, hk⟩
    · rw [if_neg hk] at h
      obtain ⟨hsuf, hat⟩ := ih h
      exact ⟨hsuf.trans (List.suffix_cons c t), hat⟩

theorem findKw_of_kwAt {l : List Char} (h : kwAt l = true) : findKw l = some l := by
  cases l with
  | nil => rw [kwAt_nil] at h; exact Bool.noConfusion h
  | cons c t => rw [findKw_cons, if_pos h]

theorem hasKw_mono {s l : List Char} (hs : s <:+ l) (h : HasKw s) : HasKw l := by
  obtain ⟨u, hu, hat⟩ := h
  exact ⟨u, hu.trans hs, hat⟩

theorem hasKw_of_kwAt {l : List Char} (h : kwAt l = true) : HasKw l :=
  ⟨l, List.suffix_refl _, h⟩

/-! ## `bcut` structure -/

theorem dropWhile_head_false {p : Char → Bool} {l t : List Char} {a : Char}
    (h : l.dropWhile p = a :: t) : p a = false := by
  induction l with
  | nil => exact List.noConfusion h
  | cons c r ih =>
    rw [List.dropWhile_cons] at h
    by_cases hp : p c = true
    · rw [if_pos hp] at h; exact ih h
    · rw [if_neg hp] at h
      simp only [List.cons.injEq] at h
      rw [← h.1]
      simpa using hp

theorem bcut_no_brace {l : List Char} (h : cRB ∉ l) : bcut l = l := by
  rw [bcut]
  have hnil : l.reverse.dropWhile (fun c => !(c == cRB)) = [] := by
    rw [List.dropWhile_eq_nil_iff]
    intro x hx
    have hxne : x ≠ cRB := fun he => h (by rw [← he]; exact List.mem_reverse.mp hx)
    simp [hxne]
  rw [hnil]
  rfl

theorem bcut_pre (l : List Char) : bcut l <+: l := by
  rw [bcut]
  cases hr : l.reverse.dropWhile (fun c => !(c == cRB)) with
  | nil => exact List.prefix_refl l
  | cons a t =>
    rw [if_neg (by simp)]
    have hsuf : (a :: t) <:+ l.reverse := by
      rw [← hr]; exact List.dropWhile_suffix _
    refine List.reverse_suffix.mp ?_
    rw [List.reverse_reverse]
    exact hsuf

theorem bcut_getLast {l : List Char} (h : cRB ∈ l) :
    (bcut l).getLast? = some cRB ∧ bcut l ≠ [] := by
  rw [bcut]
  cases hr : l.reverse.dropWhile (fun c => !(c == cRB)) with
  | nil =>
    exfalso
    rw [List.dropWhile_eq_nil_iff] at hr
    have := hr cRB (List.mem_reverse.mpr h)
    simp at this
  | cons a t =>
    have ha : a = cRB := by
      have hp := dropWhile_head_false hr
      simpa using hp
    subst ha
    rw [if_neg (by simp)]
    constructor
    · rw [List.getLast?_reverse]
      rfl
    · simp

theorem bcut_append_inner {a r : List Char} (h : cRB ∈ r) :
    bcut (a ++ r) = a ++ bcut r := by
  cases hr : r.reverse.dropWhile (fun c => !(c == cRB)) with
  | nil =>
    exfalso
    rw [List.dropWhile_eq_nil_iff] at hr
    have := hr cRB (List.mem_reverse.mpr h)
    simp at this
  | cons b t =>
    rw [bcut, bcut, List.reverse_append, List.dropWhile_append, hr]
    rw [if_neg (by simp), if_neg (by simp), if_neg (by simp)]
    rw [List.reverse_append, List.reverse_reverse]

theorem bcut_head {r : List Char} (h : cRB ∈ r) : (bcut r).head? = r.head? := by
  obtain ⟨-, hne⟩ := bcut_getLast h
  exact (head?_of_pre (bcut_pre r) hne).symm

theorem bcut_last_self {l : List Char} (h : l.getLast? = some cRB) : bcut l = l := by
  rw [bcut]
  rw [← List.head?_reverse] at h
  cases hr : l.reverse with
  | nil => rw [hr] at h; exact Option.noConfusion h
  | cons a t =>
    rw [hr] at h
    simp only [List.head?_cons, Option.some.injEq] at h
    subst h
    rw [List.dropWhile_cons_of_neg (by simp)]
    simp only [List.isEmpty_cons, Bool.false_eq_true, if_false]
    rw [← hr, List.reverse_reverse]

end T2S
namespace T2S

/-! ## Keyword-match transport through the pipeline stages -/

/-- Extending a match to the right preserves it, provided the boundary
survives: either the match already has a non-word remainder, or the extension
itself provides the boundary. -/
theorem kwAt1_append {kw s : List Char} (ext : List Char) (h : kwAt1 kw s = true)
    (hnil : stripCI kw s = some [] →
      ext = [] ∨ ∃ c t, ext = c :: t ∧ wordChar c = false) :
    kwAt1 kw (s ++ ext) = true := by
  obtain ⟨r, hs, hb⟩ := kwAt1_elim h
  obtain ⟨m, rfl, hmap⟩ := (stripCI_some_iff kw _ r).mp hs
  have hext : stripCI kw ((m ++ r) ++ ext) = some (r ++ ext) := by
    rw [List.append_assoc]
    exact stripCI_exact _ hmap
  apply kwAt1_intro hext
  rcases hb with rfl | ⟨c, t, rfl, hc⟩
  · simpa using hnil hs
  · exact Or.inr ⟨c, t ++ ext, by simp, hc⟩

theorem kwAt_extend_brace {s : List Char} (ext : List Char) (hkw : kwAt s = true)
    (hlast : s.getLast? = some cRB) : kwAt (s ++ ext) = true := by
  obtain ⟨kw, hmem, h1⟩ := (kwAt_iff s).mp hkw
  refine (kwAt_iff _).mpr ⟨kw, hmem, kwAt1_append ext h1 ?_⟩
  intro hnilmatch
  exfalso
  obtain ⟨m, hm, hmap⟩ := (stripCI_some_iff kw s []).mp hnilmatch
  rw [List.append_nil] at hm
  subst hm
  obtain ⟨x, hx, -, hw⟩ := ciMap_getLast hmem hmap
  rw [hlast] at hx
  simp only [Option.some.injEq] at hx
  exact wordChar_ne_rbrace hw hx.symm

theorem kwAt_extend_ws {s : List Char} (ext : List Char) (hkw : kwAt s = true)
    (hext : ∀ c ∈ ext, pyIsSpace c = true) : kwAt (s ++ ext) = true := by
  obtain ⟨kw, hmem, h1⟩ := (kwAt_iff s).mp hkw
  refine (kwAt_iff _).mpr ⟨kw, hmem, kwAt1_append ext h1 ?_⟩
  intro _
  cases ext with
  | nil => exact Or.inl rfl
  | cons c t => exact Or.inr ⟨c, t, rfl, ws_not_word (hext c (by simp))⟩

/-- Transporting a match backward through whitespace collapsing. -/
theorem stripCI_collapse {ks : List Char} (hks : ∀ c ∈ ks, lcLetter c = true)
    {t r : List Char} (h : stripCI ks (collapse t) = some r) :
    ∃ r₀, stripCI ks t = some r₀ ∧
      ((r = [] ∨ ∃ c t2, r = c :: t2 ∧ wordChar c = false) →
       (r₀ = [] ∨ ∃ c t2, r₀ = c :: t2 ∧ wordChar c = false)) := by
  induction ks generalizing t r with
  | nil =>
    rw [stripCI_nil_pat] at h
    simp only [Option.some.injEq] at h
    subst h
    refine ⟨t, rfl, ?_⟩
    rintro (hr | ⟨c, t2, hct, hw⟩)
    · left
      by_contra hne
      exact collapse_ne_nil hne hr
    · cases ht : t with
      | nil => exact Or.inl rfl
      | cons c1 t1 =>
        subst ht
        right
        have hh := collapse_head? (c1 :: t1)
        rw [hct] at hh
        simp only [List.head?_cons] at hh
        have h3 : some c = some (if pyIsSpace c1 = true then ' ' else c1) := hh
        have hc_eq := Option.some.inj h3
        refine ⟨c1, t1, rfl, ?_⟩
        by_cases hws2 : pyIsSpace c1 = true
        · exact ws_not_word hws2
        · rw [if_neg hws2] at hc_eq
          rw [← hc_eq]
          exact hw
  | cons k ks2 ih =>
    cases hcol : collapse t with
    | nil => rw [hcol, stripCI_cons_nil] at h; exact Option.noConfusion h
    | cons c cs =>
      rw [hcol, stripCI_cons_cons] at h
      by_cases hck : lowerAscii c = lowerAscii k
      · rw [if_pos (by simpa using hck)] at h
        cases ht : t with
        | nil => rw [ht] at hcol; exact List.noConfusion hcol
        | cons c1 t1 =>
          subst ht
          have hh := collapse_head? (c1 :: t1)
          rw [hcol] at hh
          simp only [List.head?_cons] at hh
          have h3 : some c = some (if pyIsSpace c1 = true then ' ' else c1) := hh
          have hc_eq := Option.some.inj h3
          have hc1 : pyIsSpace c1 = false := by
            by_contra hws
            have hws2 : pyIsSpace c1 = true := by simpa using hws
            rw [if_pos hws2] at hc_eq
            subst hc_eq
            have h4 := (ciChar_facts (hks k (by simp)) hck).1
            exact absurd h4 (by decide)
          rw [if_neg (by simp [hc1])] at hc_eq
          subst hc_eq
          rw [collapse_cons_nonws t1 hc1] at hcol
          simp only [List.cons.injEq] at hcol
          obtain ⟨r0, hstrip, htrans⟩ := ih (fun c hc => hks c (by simp [hc])) (hcol.2 ▸ h)
          refine ⟨r0, ?_, htrans⟩
          rw [stripCI_cons_cons, if_pos (by simpa using hck)]
          exact hstrip
      · rw [if_neg (by simpa using hck)] at h
        exact Option.noConfusion h

theorem kwAt_collapse_cons_bwd {c : Char} {t : List Char} (hws : pyIsSpace c = false)
    (h : kwAt (c :: collapse t) = true) : kwAt (c :: t) = true := by
  obtain ⟨kw, hmem, h1⟩ := (kwAt_iff _).mp h
  obtain ⟨hkne, hlets, -⟩ := kwList_ok kw hmem
  obtain ⟨r, hs, hb⟩ := kwAt1_elim h1
  cases kw with
  | nil => exact absurd rfl hkne
  | cons k ks =>
    rw [stripCI_cons_cons] at hs
    by_cases hck : lowerAscii c = lowerAscii k
    · rw [if_pos (by simpa using hck)] at hs
      obtain ⟨r0, hstrip, htrans⟩ := stripCI_collapse (fun x hx => hlets x (by simp [hx])) hs
      refine (kwAt_iff _).mpr ⟨k :: ks, hmem, kwAt1_intro ?_ (htrans hb)⟩
      rw [stripCI_cons_cons, if_pos (by simpa using hck)]
      exact hstrip
    · rw [if_neg (by simpa using hck)] at hs
      exact Option.noConfusion hs

theorem hasKw_collapse_bwd {l : List Char} (h : HasKw (collapse l)) : HasKw l := by
  induction l with
  | nil => exact h
  | cons c t ih =>
    cases t with
    | nil =>
      exfalso
      obtain ⟨s, hsuf, hat⟩ := h
      have hlen3 := kwAt_min_len hat
      have hlen : s.length ≤ (collapse [c]).length := hsuf.sublist.length_le
      rw [collapse_single] at hlen
      split_ifs at hlen <;> simp at hlen <;> omega
    | cons d r =>
      rw [collapse_cons_cons] at h
      by_cases h1 : pyIsSpace c = true
      · by_cases h2 : pyIsSpace d = true
        · rw [if_pos h1, if_pos h2] at h
          exact hasKw_mono (List.suffix_cons c (d :: r)) (ih h)
        · rw [if_pos h1, if_neg h2] at h
          obtain ⟨s, hsuf, hat⟩ := h
          rcases List.suffix_cons_iff.mp hsuf with rfl | hsuf2
          · rw [kwAt_ws_head (by rfl)] at hat
            exact Bool.noConfusion hat
          · exact hasKw_mono (List.suffix_cons c (d :: r)) (ih ⟨s, hsuf2, hat⟩)
      · rw [if_neg h1] at h
        obtain ⟨s, hsuf, hat⟩ := h
        rcases List.suffix_cons_iff.mp hsuf with rfl | hsuf2
        · have hcf : pyIsSpace c = false := by simpa using h1
          exact hasKw_of_kwAt (kwAt_collapse_cons_bwd hcf hat)
        · exact hasKw_mono (List.suffix_cons c (d :: r)) (ih ⟨s, hsuf2, hat⟩)

theorem hasKw_bcut_bwd {l : List Char} (h : HasKw (bcut l)) : HasKw l := by
  by_cases hbr : cRB ∈ l
  · obtain ⟨s, hsuf, hat⟩ := h
    obtain ⟨rest, hrest⟩ := bcut_pre l
    have hs_ne : s ≠ [] := by
      intro he
      subst he
      rw [kwAt_nil] at hat
      exact Bool.noConfusion hat
    have hlast : s.getLast? = some cRB := by
      rw [← getLast?_of_suffix hsuf hs_ne]
      exact (bcut_getLast hbr).1
    obtain ⟨w, hw⟩ := hsuf
    refine ⟨s ++ rest, ?_, kwAt_extend_brace rest hat hlast⟩
    rw [← hrest]
    exact ⟨w, by rw [← List.append_assoc, hw]⟩
  · rw [bcut_no_brace hbr] at h
    exact h

theorem hasKw_lstrip_bwd {l : List Char} (h : HasKw (lstrip l)) : HasKw l :=
  hasKw_mono (lstrip_suffix l) h

theorem hasKw_rstrip_bwd {l : List Char} (h : HasKw (rstrip l)) : HasKw l := by
  obtain ⟨s, hsuf, hat⟩ := h
  obtain ⟨w, hdecomp, hws⟩ := rstrip_decomp l
  obtain ⟨u, hu⟩ := hsuf
  refine ⟨s ++ w, ?_, kwAt_extend_ws w hat hws⟩
  rw [hdecomp]
  exact ⟨u, by rw [← List.append_assoc, hu]⟩

end T2S
namespace T2S

/-! ## Forward preservation of a head keyword match -/

theorem rstrip_append (a b : List Char) :
    rstrip (a ++ b) = if rstrip b = [] then rstrip a else a ++ rstrip b := by
  rw [rstrip, List.reverse_append, List.dropWhile_append]
  by_cases hb : b.reverse.dropWhile pyIsSpace = []
  · have hrb : rstrip b = [] := by rw [rstrip, hb]; rfl
    rw [if_pos (by simp [hb]), if_pos hrb]
    rfl
  · have hrb : rstrip b ≠ [] := by
      rw [rstrip]
      intro he
      exact hb (by simpa using congrArg List.reverse he)
    rw [if_neg (by simpa using hb), if_neg hrb, List.reverse_append, List.reverse_reverse]
    rfl

theorem kwAt_bcut_fwd {l : List Char} (h : kwAt l = true) : kwAt (bcut l) = true := by
  by_cases hbr : cRB ∈ l
  · obtain ⟨kw, hmem, h1⟩ := (kwAt_iff l).mp h
    obtain ⟨r, hs, hb⟩ := kwAt1_elim h1
    obtain ⟨m, hm, hmap⟩ := (stripCI_some_iff kw l r).mp hs
    have hrm : cRB ∈ r := by
      rcases List.mem_append.mp (hm ▸ hbr) with hin | hin
      · exact absurd rfl (wordChar_ne_rbrace (ciMap_facts hmem hmap cRB hin).2)
      · exact hin
    rw [hm, bcut_append_inner hrm]
    refine (kwAt_iff _).mpr ⟨kw, hmem, kwAt1_intro (stripCI_exact _ hmap) ?_⟩
    rcases hb with rfl | ⟨c, t, rfl, hc⟩
    · exact absurd hrm (by simp)
    · obtain ⟨-, hbne⟩ := bcut_getLast hrm
      cases hbc : bcut (c :: t) with
      | nil => exact absurd hbc hbne
      | cons c2 t2 =>
        have hh := bcut_head hrm
        rw [hbc] at hh
        simp only [List.head?_cons, Option.some.injEq] at hh
        exact Or.inr ⟨c2, t2, rfl, hh ▸ hc⟩
  · rw [bcut_no_brace hbr]
    exact h

theorem kwAt_collapse_fwd {l : List Char} (h : kwAt l = true) : kwAt (collapse l) = true := by
  obtain ⟨kw, hmem, h1⟩ := (kwAt_iff l).mp h
  obtain ⟨r, hs, hb⟩ := kwAt1_elim h1
  obtain ⟨m, hm, hmap⟩ := (stripCI_some_iff kw l r).mp hs
  rw [hm, collapse_append_nonws r (fun c hc => (ciMap_facts hmem hmap c hc).1)]
  refine (kwAt_iff _).mpr ⟨kw, hmem, kwAt1_intro (stripCI_exact _ hmap) ?_⟩
  rcases hb with rfl | ⟨c, t, rfl, hc⟩
  · exact Or.inl rfl
  · have hne : collapse (c :: t) ≠ [] := collapse_ne_nil (by simp)
    cases hcc : collapse (c :: t) with
    | nil => exact absurd hcc hne
    | cons c2 t2 =>
      have hh := collapse_head? (c :: t)
      rw [hcc] at hh
      simp only [List.head?_cons] at hh
      have h3 : some c2 = some (if pyIsSpace c = true then ' ' else c) := hh
      have hc2 := Option.some.inj h3
      refine Or.inr ⟨c2, t2, rfl, ?_⟩
      by_cases hws : pyIsSpace c = true
      · rw [if_pos hws] at hc2
        rw [hc2]
        decide
      · rw [if_neg hws] at hc2
        rw [hc2]
        exact hc

theorem kwAt_rstrip_fwd {l : List Char} (h : kwAt l = true) : kwAt (rstrip l) = true := by
  obtain ⟨kw, hmem, h1⟩ := (kwAt_iff l).mp h
  obtain ⟨r, hs, hb⟩ := kwAt1_elim h1
  obtain ⟨m, hm, hmap⟩ := (stripCI_some_iff kw l r).mp hs
  subst hm
  rw [rstrip_append]
  by_cases hrr : rstrip r = []
  · rw [if_pos hrr]
    obtain ⟨x, hx, hxw, -⟩ := ciMap_getLast hmem hmap
    rw [rstrip_eq_self hx hxw]
    refine (kwAt_iff _).mpr ⟨kw, hmem, kwAt1_intro ?_ (Or.inl rfl)⟩
    have := stripCI_exact ([] : List Char) hmap
    rwa [List.append_nil] at this
  · rw [if_neg hrr]
    refine (kwAt_iff _).mpr ⟨kw, hmem, kwAt1_intro (stripCI_exact _ hmap) ?_⟩
    rcases hb with rfl | ⟨c, t, rfl, hc⟩
    · exact absurd rfl hrr
    · cases hrc : rstrip (c :: t) with
      | nil => exact absurd hrc hrr
      | cons c2 t2 =>
        have hh := head?_of_pre (rstrip_pre (c :: t)) (by rw [hrc]; simp)
        rw [hrc] at hh
        simp only [List.head?_cons, Option.some.injEq] at hh
        exact Or.inr ⟨c2, t2, rfl, hh ▸ hc⟩

theorem kcut_eq_of_none {l : List Char} (h : findKw l = none) : kcut l = l := by
  rw [kcut, h]
  rfl

theorem kcut_eq_of_kwAt {l : List Char} (h : kwAt l = true) : kcut l = l := by
  rw [kcut, findKw_of_kwAt h]
  rfl

theorem wsFix_kwAt_fwd {l : List Char} (h : kwAt l = true) : kwAt (wsFix l) = true := by
  have h2 := kwAt_collapse_fwd h
  obtain ⟨c, t, hct, hcw⟩ := kwAt_head_nonws h2
  rw [wsFix, pstrip, hct, lstrip_cons_nonws hcw, ← hct]
  exact kwAt_rstrip_fwd h2

theorem hasKw_wsFix_bwd {l : List Char} (h : HasKw (wsFix l)) : HasKw l := by
  rw [wsFix, pstrip] at h
  exact hasKw_collapse_bwd (hasKw_lstrip_bwd (hasKw_rstrip_bwd h))

/-- After one full pass the keyword-extraction stage is inert. -/
theorem kcut_tail (t4 : List Char) :
    kcut (wsFix (bcut (kcut t4))) = wsFix (bcut (kcut t4)) := by
  cases hf : findKw t4 with
  | none =>
    have hkc : kcut t4 = t4 := kcut_eq_of_none hf
    rw [hkc]
    have hnone : findKw (wsFix (bcut t4)) = none := by
      rw [findKw_none_iff]
      intro s hsuf
      cases hat : kwAt s with
      | false => rfl
      | true =>
        exfalso
        have hk : HasKw t4 := hasKw_bcut_bwd (hasKw_wsFix_bwd ⟨s, hsuf, hat⟩)
        obtain ⟨u, hu, hatu⟩ := hk
        rw [(findKw_none_iff t4).mp hf u hu] at hatu
        exact Bool.noConfusion hatu
    exact kcut_eq_of_none hnone
  | some s =>
    obtain ⟨hsuf, hat⟩ := findKw_some hf
    have hkc : kcut t4 = s := by rw [kcut, hf]; rfl
    rw [hkc]
    exact kcut_eq_of_kwAt (wsFix_kwAt_fwd (kwAt_bcut_fwd hat))

end T2S
namespace T2S

/-! ## Brace-cut inertness after one pass -/

theorem getLast?_cons_ne_nil {a : Char} {l : List Char} (h : l ≠ []) :
    (a :: l).getLast? = l.getLast? := by
  rw [show a :: l = [a] ++ l from rfl]
  exact List.getLast?_append_of_ne_nil _ h

theorem collapse_getLast? (l : List Char) :
    (collapse l).getLast? = l.getLast?.map (fun c => if pyIsSpace c then ' ' else c) := by
  induction l with
  | nil => rfl
  | cons c t ih =>
    cases t with
    | nil =>
      rw [collapse_single]
      split_ifs with h1 <;> simp [h1]
    | cons d r =>
      have hne : collapse (d :: r) ≠ [] := collapse_ne_nil (by simp)
      rw [collapse_cons_cons]
      split_ifs with h1 h2
      · rw [ih, getLast?_cons_ne_nil (a := c) (l := d :: r) (by simp)]
      · rw [getLast?_cons_ne_nil (a := ' ') (l := collapse (d :: r)) hne, ih,
          getLast?_cons_ne_nil (a := c) (l := d :: r) (by simp)]
      · rw [getLast?_cons_ne_nil (a := c) (l := collapse (d :: r)) hne, ih,
          getLast?_cons_ne_nil (a := c) (l := d :: r) (by simp)]

theorem collapse_mem {c : Char} {l : List Char} (h : c ∈ collapse l) :
    c = ' ' ∨ c ∈ l := by
  induction l with
  | nil => exact absurd h (by simp [collapse])
  | cons a t ih =>
    cases t with
    | nil =>
      rw [collapse_single] at h
      split_ifs at h with h1
      · simp only [List.mem_singleton] at h
        exact Or.inl h
      · simp only [List.mem_singleton] at h
        exact Or.inr (by simp [h])
    | cons d r =>
      rw [collapse_cons_cons] at h
      split_ifs at h with h1 h2
      · rcases ih h with hl | hr
        · exact Or.inl hl
        · exact Or.inr (by simp [List.mem_cons] at hr ⊢; tauto)
      · rcases List.mem_cons.mp h with rfl | hin
        · exact Or.inl rfl
        · rcases ih hin with hl | hr
          · exact Or.inl hl
          · exact Or.inr (by simp [List.mem_cons] at hr ⊢; tauto)
      · rcases List.mem_cons.mp h with rfl | hin
        · exact Or.inr (by simp)
        · rcases ih hin with hl | hr
          · exact Or.inl hl
          · exact Or.inr (by simp [List.mem_cons] at hr ⊢; tauto)

theorem wsFix_mem {c : Char} {l : List Char} (h : c ∈ wsFix l) : c = ' ' ∨ c ∈ l := by
  rw [wsFix, pstrip] at h
  have h2 : c ∈ collapse l :=
    (lstrip_suffix (collapse l)).sublist.mem ((rstrip_pre _).sublist.mem h)
  exact collapse_mem h2

/-- After one full pass the brace-truncation stage is inert. -/
theorem bcut_tail (t5 : List Char) : bcut (wsFix (bcut t5)) = wsFix (bcut t5) := by
  by_cases hbr : cRB ∈ t5
  · obtain ⟨hlast, hne⟩ := bcut_getLast hbr
    have hcl : (collapse (bcut t5)).getLast? = some cRB := by
      rw [collapse_getLast?, hlast]
      rfl
    have hmem : cRB ∈ collapse (bcut t5) := mem_of_getLast? hcl
    have hlne : lstrip (collapse (bcut t5)) ≠ [] := by
      intro he
      rw [lstrip, List.dropWhile_eq_nil_iff] at he
      have := he cRB hmem
      exact absurd this (by decide)
    have hll : (lstrip (collapse (bcut t5))).getLast? = some cRB := by
      rw [← getLast?_of_suffix (lstrip_suffix _) hlne]
      exact hcl
    have hfix : wsFix (bcut t5) = lstrip (collapse (bcut t5)) := by
      rw [wsFix, pstrip]
      exact rstrip_eq_self hll (by decide)
    rw [hfix]
    exact bcut_last_self hll
  · have hbc : bcut t5 = t5 := bcut_no_brace hbr
    rw [hbc]
    apply bcut_no_brace
    intro hmem
    rcases wsFix_mem hmem with he | hin
    · exact absurd he (by decide)
    · exact hbr hin

/-! ## The normalizer output contains no double quote -/

theorem dqToSq_noDQ (l : List Char) : cDQ ∉ dqToSq l := by
  intro h
  obtain ⟨a, -, ha⟩ := List.mem_map.mp h
  by_cases hadq : a == cDQ
  · rw [if_pos hadq] at ha
    exact absurd ha (by decide)
  · rw [if_neg hadq] at ha
    exact hadq (by simp [ha])

theorem normQuotes_noDQ (l : List Char) : cDQ ∉ normQuotes l := dqToSq_noDQ _

theorem dropLeadA_suffix (l : List Char) : dropLeadA l <:+ l := by
  rw [dropLeadA]
  split
  · exact List.suffix_refl l
  · rename_i r1 h1
    split
    · exact List.suffix_refl l
    · rename_i r2 h2
      exact (List.dropWhile_suffix _).trans ((stripCI_suffix h2).trans
        ((List.dropWhile_suffix _).trans (stripCI_suffix h1)))

theorem stripCIAlt_suffix {p q l r : List Char} (h : stripCIAlt p q l = some r) :
    r <:+ l := by
  rw [stripCIAlt] at h
  cases hp : stripCI p l with
  | some r2 =>
    rw [hp] at h
    simp only [Option.some.injEq] at h
    exact h ▸ stripCI_suffix hp
  | none =>
    rw [hp] at h
    exact stripCI_suffix h

theorem dropLeadB_suffix (l : List Char) : dropLeadB l <:+ l := by
  rw [dropLeadB]
  split
  · exact List.suffix_refl l
  · rename_i r1 h1
    split
    · exact List.suffix_refl l
    · rename_i r2 h2
      have hr2 : r2.dropWhile pyIsSpace <:+ l :=
        (List.dropWhile_suffix _).trans ((stripCI_suffix h2).trans
          ((List.dropWhile_suffix _).trans (stripCI_suffix h1)))
      split
      · exact List.suffix_refl l
      · rename_i r3 h3
        have hr3 : r3.dropWhile pyIsSpace <:+ l :=
          (List.dropWhile_suffix _).trans ((stripCIAlt_suffix h3).trans hr2)
        split
        · exact List.suffix_refl l
        · rename_i r4 h4
          exact (List.dropWhile_suffix _).trans ((stripCIAlt_suffix h4).trans hr3)

theorem kcut_suffix (l : List Char) : kcut l <:+ l := by
  rw [kcut]
  cases hf : findKw l with
  | none => exact List.suffix_refl l
  | some s => exact (findKw_some hf).1

/-- No double quote survives `clean_sparql`. -/
theorem clean_noDQ (x : List Char) : cDQ ∉ clean_sparql x := by
  rw [clean_sparql]
  by_cases hx : x.isEmpty
  · rw [if_pos hx]
    simp
  · rw [if_neg hx]
    intro hmem
    set q := normQuotes (dropFenceEnd (dropFenceStart (pstrip x))) with hq
    have hnq : cDQ ∉ q := normQuotes_noDQ _
    rcases wsFix_mem hmem with he | hin
    · exact absurd he (by decide)
    · have h4 : cDQ ∈ kcut (dropLeadB (dropLeadA q)) := (bcut_pre _).sublist.mem hin
      have h5 : cDQ ∈ dropLeadB (dropLeadA q) := (kcut_suffix _).sublist.mem h4
      have h6 : cDQ ∈ dropLeadA q := (dropLeadB_suffix _).sublist.mem h5
      exact hnq ((dropLeadA_suffix _).sublist.mem h6)

theorem unescDQ_eq_self {l : List Char} (h : cDQ ∉ l) : unescDQ l = l := by
  induction l with
  | nil => rfl
  | cons c t ih =>
    cases t with
    | nil => rfl
    | cons d r =>
      rw [unescDQ]
      have hd : ¬(d == cDQ) = true := by
        simp only [beq_iff_eq]
        intro he
        exact h (by simp [he])
      rw [if_neg (by simp [hd])]
      rw [ih (fun hm => h (by simp [List.mem_cons] at hm ⊢; tauto))]

theorem dqToSq_eq_self {l : List Char} (h : cDQ ∉ l) : dqToSq l = l := by
  rw [dqToSq]
  conv_rhs => rw [← List.map_id l]
  apply List.map_congr_left
  intro a ha
  have : ¬(a == cDQ) = true := by
    simp only [beq_iff_eq]
    intro he
    exact h (he ▸ ha)
  rw [if_neg this]
  rfl

theorem normQuotes_eq_self {l : List Char} (h : cDQ ∉ l) : normQuotes l = l := by
  rw [normQuotes, unescDQ_eq_self h, dqToSq_eq_self h]

end T2S
namespace T2S

/-! ## Inertness of each stage on the normalizer's output -/

theorem clean_pstrip (x : List Char) : pstrip (clean_sparql x) = clean_sparql x := by
  rw [clean_sparql]
  by_cases hx : x.isEmpty
  · rw [if_pos hx]
    rfl
  · rw [if_neg hx, wsFix, pstrip_idem]

theorem clean_collapse (x : List Char) : collapse (clean_sparql x) = clean_sparql x := by
  rw [clean_sparql]
  by_cases hx : x.isEmpty
  · rw [if_pos hx]
    rfl
  · rw [if_neg hx]
    apply collapse_eq_self
    rw [wsFix, pstrip]
    exact isCollapsed_pre (rstrip_pre _)
      (isCollapsed_suffix (lstrip_suffix _) (isCollapsed_collapse _))

theorem clean_kcut (x : List Char) : kcut (clean_sparql x) = clean_sparql x := by
  rw [clean_sparql]
  by_cases hx : x.isEmpty
  · rw [if_pos hx]
    rfl
  · rw [if_neg hx]
    exact kcut_tail _

theorem clean_bcut (x : List Char) : bcut (clean_sparql x) = clean_sparql x := by
  rw [clean_sparql]
  by_cases hx : x.isEmpty
  · rw [if_pos hx]
    rfl
  · rw [if_neg hx]
    exact bcut_tail _

theorem clean_normQuotes (x : List Char) : normQuotes (clean_sparql x) = clean_sparql x :=
  normQuotes_eq_self (clean_noDQ x)

/-! ## C2 -/

/-- C2 counterexample: normalization is not idempotent.  The anchored
boilerplate-removal stage strips one leading `sparql query:` per pass, so a
stacked lead-in changes again on the second pass. -/
theorem C2_counterexample :
    clean_sparql (clean_sparql ("sparql query: sparql query: hello".data)) ≠
      clean_sparql ("sparql query: sparql query: hello".data) := by
  decide

/-- C2 amended: `clean_sparql` is idempotent on every input whose output is a
fixed point of the fence-removal and lead-in-phrase stages (the
counterexample shows these stages can re-fire on the output); all remaining
stages — strip, quote normalization, keyword extraction, brace truncation,
and whitespace collapsing — are always inert on the output, which is what
this theorem proves. -/
theorem C2_amended_idempotent (x : List Char)
    (h1 : dropFenceStart (clean_sparql x) = clean_sparql x)
    (h2 : dropFenceEnd (clean_sparql x) = clean_sparql x)
    (h3 : dropLeadA (clean_sparql x) = clean_sparql x)
    (h4 : dropLeadB (clean_sparql x) = clean_sparql x) :
    clean_sparql (clean_sparql x) = clean_sparql x := by
  by_cases hy : (clean_sparql x).isEmpty
  · have he : clean_sparql x = [] := List.isEmpty_iff.mp hy
    conv_lhs => rw [clean_sparql]
    rw [if_pos hy]
    exact he.symm
  · conv_lhs => rw [clean_sparql]
    rw [if_neg hy, clean_pstrip, h1, h2, clean_normQuotes, h3, h4, clean_kcut, clean_bcut,
      wsFix, clean_collapse, clean_pstrip]

/-- C2 witness: the amended idempotence theorem applied at the documented
normalization scenario. -/
theorem C2_witness :
    clean_sparql (clean_sparql
        ("The SPARQL query is: ASK \x7b dbr:Foo dbo:bar \"baz\" \x7d".data)) =
      clean_sparql ("The SPARQL query is: ASK \x7b dbr:Foo dbo:bar \"baz\" \x7d".data) :=
  C2_amended_idempotent _ (by decide) (by decide) (by decide) (by decide)

end T2S
